import Mathlib

/-!
Verification of the RSA Montgomery-accelerator benchmark core
(`src/main_1.c`) against its natural-language specification.

BigNums are little-endian lists of 32-bit words, modelled as `List Nat`
with every word `< 2^32`.  Machine arithmetic is modelled with `Nat`/`Int`
and explicit `% 2^32` at the points where the C code truncates.
-/

namespace RsaMont

/-! ## Definitions: the shallow embedding of the source -/

/-- The word base `2^32` of the 32-bit limbs. -/
def B32 : Nat := 2 ^ 32

/-- Numeric value of a little-endian list of 32-bit words. -/
def bigval : List Nat → Nat
  | [] => 0
  | d :: ds => d + B32 * bigval ds

/-- Embedding of `bigint_copy(dst, src, nwords)`: the first `nwords` words of `src`. -/
def bigint_copy (src : List Nat) (nwords : Nat) : List Nat := src.take nwords

/-- Embedding of `bigint_set_u32(dst, v, nwords)`: low word `v`, the rest zero. -/
def bigint_set_u32 (v : Nat) (nwords : Nat) : List Nat :=
  v :: List.replicate (nwords - 1) 0

/-- Embedding of `bigint_equal(a, b, nwords)`: word-wise equality. -/
def bigint_equal (a b : List Nat) : Bool := a == b

/-- One inner row `tmp[i+j] = (u32)(tmp[i+j] + A[i]*B[j] + carry)` with the
final carry added into the word just past the row. -/
def mulRow : List Nat → List Nat → Nat → Nat → List Nat
  | t :: ts, b :: bs, ai, carry =>
      let v := t + ai * b + carry
      v % B32 :: mulRow ts bs ai (v / B32)
  | t :: ts, [], _, carry => (t + carry) :: ts
  | [], _, _, _ => []

/-- The outer loop over the words of `A`, one `mulRow` per word, the
accumulator window advancing one word per row. -/
def mulAcc : List Nat → List Nat → List Nat → List Nat
  | [], _, tmp => tmp
  | a :: as', bl, tmp =>
      match mulRow tmp bl a 0 with
      | [] => []
      | t :: ts => t :: mulAcc as' bl ts

/-- The most-significant-word-first comparison of the reduction loop:
the first differing word decides (`>` checked before `<`, as in the C
loop); all-equal compares as `eq`. -/
def cmpMSW : List Nat → List Nat → Ordering
  | [], [] => .eq
  | [], _ :: _ => .eq
  | _ :: _, [] => .eq
  | r :: rs, n :: ns =>
      match cmpMSW rs ns with
      | .eq => if n < r then .gt else if r < n then .lt else .eq
      | o => o

/-- The C code's `ge` flag: set only when `R` is strictly greater than `N`
in the most-significant-word-first comparison (ties in every word leave
`ge = 0`). -/
def geFlag (r n : List Nat) : Bool := cmpMSW r n == .gt

/-- Word-wise subtraction with borrow: `t = (u64)R[i] - N[i] - borrow`,
`R[i] = (u32)t`, new borrow = sign bit of `t`. -/
def subWords : List Nat → List Nat → Nat → List Nat
  | r :: rs, n :: ns, b =>
      if r < n + b then (r + B32 - (n + b)) :: subWords rs ns 1
      else (r - (n + b)) :: subWords rs ns 0
  | r, _, _ => r

/-- The unbounded `for(;;)` compare-and-subtract loop, run with explicit
fuel; `bigval R + 1` steps are provably enough whenever `bigval N ≥ 1`. -/
def reduceLoop : Nat → List Nat → List Nat → List Nat
  | 0, r, _ => r
  | fuel + 1, r, n => if geFlag r n then reduceLoop fuel (subWords r n 0) n else r

/-- Embedding of `modmul_sw(A, B, N, R, nwords)`: double-width schoolbook product into
`tmp`, the low `nwords` words retained, then compare-and-subtract. -/
def modmul_sw (A B N : List Nat) (nwords : Nat) : List Nat :=
  let tmp := mulAcc (A.take nwords) (B.take nwords) (List.replicate (2 * nwords) 0)
  let r := tmp.take nwords
  reduceLoop (bigval r + 1) r N

/-- Exiting borrow of the word-wise subtraction. -/
def subBorrow : List Nat → List Nat → Nat → Nat
  | r :: rs, n :: ns, b => subBorrow rs ns (if r < n + b then 1 else 0)
  | _, _, b => b

/-- What the reduction loop leaves behind: the remainder, except that a
non-zero exact multiple of `N` is only reduced down to `N` itself (the
comparison stops at equality). -/
def reduceSpec (r n : Nat) : Nat :=
  if n ∣ r ∧ r ≠ 0 then n else r % n

/-- The bit loop of `modexp_sw_scalar`: for each exponent bit (LSB first)
conditionally multiply `x` by `a`, then square `a`, both with `modmul_sw`. -/
def modexp_sw_loop (N : List Nat) (w : Nat) : Nat → Nat → List Nat → List Nat → List Nat
  | 0, _, x, _ => x
  | bits + 1, e, x, a =>
      let x' := if e % 2 = 1 then modmul_sw x a N w else x
      modexp_sw_loop N w bits (e / 2) x' (modmul_sw a a N w)

/-- Embedding of `modexp_sw_scalar(base, exp, exp_bits, N, result, nwords)`: `x = 1`,
`a = base`, then the bit loop, then the result is a copy of `x`.  (No
Montgomery-domain entry or exit multiplications are performed.) -/
def modexp_sw_scalar (base : List Nat) (e : Nat) (exp_bits : Nat)
    (N : List Nat) (nwords : Nat) : List Nat :=
  let x := bigint_set_u32 1 nwords
  let a := bigint_copy base nwords
  bigint_copy (modexp_sw_loop N nwords exp_bits e x a) nwords

/-- One conditional-multiply-and-square step on state `(x, a)`, testing bit
`bit` of `e`, with an abstract multiply primitive. -/
def specStep (mul : List Nat → List Nat → List Nat) (e : Nat)
    (st : List Nat × List Nat) (bit : Nat) : List Nat × List Nat :=
  (if (e >>> bit) % 2 = 1 then mul st.1 st.2 else st.1, mul st.2 st.2)

/-- Modelled from the spec: the §4.4 Montgomery-domain engine
`x = mul(ONE, R2); a = mul(base, R2); bit loop; result = mul(x, ONE)`,
parameterized by the multiply primitive. -/
def specMontExp (mul : List Nat → List Nat → List Nat)
    (one base R2 : List Nat) (e bits : Nat) : List Nat :=
  let p := (List.range bits).foldl (specStep mul e) (mul one R2, mul base R2)
  mul p.1 one

/-- The same square-and-multiply skeleton operating directly on ordinary
residues: `x = ONE`, `a = base`, bit loop, result = `x`. -/
def specPlainExp (mul : List Nat → List Nat → List Nat)
    (one base : List Nat) (e bits : Nat) : List Nat :=
  ((List.range bits).foldl (specStep mul e) (one, base)).1

structure HWDev where
  status : Nat → Nat
  res : List Nat → List Nat → List Nat → Nat → Nat → Nat

/-- The constant `HW_DONE_TIMEOUT` from the source. -/
def HW_DONE_TIMEOUT : Nat := 100000000

/-- The polling loop: the index of the first status read with bit 0 set,
scanning reads `j, j+1, ...` with `fuel` reads remaining.  The C loop
performs at most `HW_DONE_TIMEOUT + 1` status reads before giving up
(`polls` counts failed reads and the loop aborts when it exceeds the
bound). -/
def pollFirst : Nat → (Nat → Nat) → Nat → Option Nat
  | 0, _, _ => none
  | fuel + 1, s, j => if s j % 2 = 1 then some j else pollFirst fuel s (j + 1)

/-- Embedding of `montgomery_mul_hw`: write the operand words and `n'`, start, poll for
bit 0 of the status register; on timeout return failure having read no
result word; on success read `nwords` result-bank words. -/
def montgomery_mul_hw (dev : HWDev) (nwords : Nat) (A B N : List Nat)
    (nprime : Nat) : Option (List Nat) :=
  match pollFirst (HW_DONE_TIMEOUT + 1) dev.status 0 with
  | none => none
  | some _ => some ((List.range nwords).map (dev.res A B N nprime))

/-- Whether one invocation on this device completes (status bit set within
the poll bound). -/
def mulOk (dev : HWDev) : Bool :=
  (pollFirst (HW_DONE_TIMEOUT + 1) dev.status 0).isSome

/-- The bit loop of `modexp_hw_scalar` over a stream of per-invocation
devices; `k` is the index of the next invocation.  Returns
`(ok, x, a, next invocation index)`; on the first failed invocation it
stops immediately. -/
def modexp_hw_loop (devs : Nat → HWDev) (w : Nat) (N : List Nat) (nprime : Nat) :
    Nat → Nat → Nat → List Nat → List Nat → Bool × List Nat × List Nat × Nat
  | 0, _, k, x, a => (true, x, a, k)
  | bits + 1, e, k, x, a =>
      if e % 2 = 1 then
        match montgomery_mul_hw (devs k) w x a N nprime with
        | none => (false, x, a, k + 1)
        | some x' =>
            match montgomery_mul_hw (devs (k + 1)) w a a N nprime with
            | none => (false, x', a, k + 2)
            | some a' => modexp_hw_loop devs w N nprime bits (e / 2) (k + 2) x' a'
      else
        match montgomery_mul_hw (devs k) w a a N nprime with
        | none => (false, x, a, k + 1)
        | some a' => modexp_hw_loop devs w N nprime bits (e / 2) (k + 1) x a'

/-- Embedding of `modexp_hw_scalar`: `x = mul(one, R2)`, `a = mul(base, R2)`, the bit
loop, `result = mul(x, one)`; every failed invocation aborts immediately
with failure, leaving `result` as it was.  Returns
`(ok, result buffer contents, number of accelerator invocations made)`. -/
def modexp_hw_scalar (devs : Nat → HWDev) (base : List Nat) (e : Nat)
    (exp_bits : Nat) (N : List Nat) (nprime : Nat) (R2 : List Nat)
    (result : List Nat) (nwords : Nat) : Bool × List Nat × Nat :=
  let one := bigint_set_u32 1 nwords
  match montgomery_mul_hw (devs 0) nwords one R2 N nprime with
  | none => (false, result, 1)
  | some x =>
      match montgomery_mul_hw (devs 1) nwords base R2 N nprime with
      | none => (false, result, 2)
      | some a =>
          match modexp_hw_loop devs nwords N nprime exp_bits e 2 x a with
          | (false, _, _, k) => (false, result, k)
          | (true, x', _, k) =>
              match montgomery_mul_hw (devs k) nwords x' one N nprime with
              | none => (false, result, k + 1)
              | some r => (true, r, k + 1)

/-- A device whose status bit is set at the first poll and whose result
bank holds the 32-bit digits of the plain product of the written operands. -/
def hwDevGood : HWDev :=
  ⟨fun _ => 1, fun A B _ _ i => (bigval A * bigval B) / B32 ^ i % B32⟩

/-- A device that never sets its status bit. -/
def hwDevBad : HWDev := ⟨fun _ => 0, fun _ _ _ _ _ => 0⟩

/-- A device stream whose second (and every later) invocation times out. -/
def hwDevsFailSecond : Nat → HWDev := fun k => if k = 0 then hwDevGood else hwDevBad

def xgcdLoop : Nat → Int → Int → Int → Int → Int
  | 0, t, _, _, _ => t
  | fuel + 1, t, newT, r, newR =>
      if newR = 0 then t
      else
        let q := Int.tdiv r newR
        xgcdLoop fuel newT (t - q * newT) newR (r - q * newR)

/-- Embedding of `modinv32(n)`: inverse of odd `n` modulo `2^32`. -/
def modinv32 (n : Nat) : Nat :=
  let t := xgcdLoop (n + 1) 0 1 ((2 : Int) ^ 32) (n : Int)
  let t' := if t < 0 then t + 2 ^ 32 else t
  (t'.emod (2 ^ 32)).toNat

/-- An ideal accelerator: done at the first poll, result bank holding the
little-endian words of `X * Y * rho mod Nv` for the written operands. -/
def idealDev (Nv ρ : Nat) : HWDev :=
  ⟨fun _ => 1, fun A B _ _ i => (bigval A * bigval B * ρ) % Nv / B32 ^ i % B32⟩

def RSA_E : Nat := 17

def RSA_E_BITS : Nat := 5

def RSA_D : Nat := 2753

def RSA_D_BITS : Nat := 12

/-- The first `w` words of `RSA_N = {3233, 0, ...}`. -/
def RSA_N_list (w : Nat) : List Nat := 3233 :: List.replicate (w - 1) 0

/-- Embedding of `compute_R2_modN_32(n0, nwords)`: start from `r = 1`, double mod `n0`
`32 * nwords` times, then square mod `n0`. -/
def compute_R2_modN_32 (n0 nwords : Nat) : Nat :=
  let r := (fun r => r * 2 % n0)^[32 * nwords] 1
  r * r % n0

/-- The `R2_out` BigNum filled by `init_mont_params_for_size`: the computed
`R^2 mod n0` in the low word, zeros above. -/
def init_mont_R2 (n0 w : Nat) : List Nat :=
  compute_R2_modN_32 n0 w :: List.replicate (w - 1) 0

/-! ## Theorems -/

theorem bigval_nil : bigval [] = 0 := rfl

theorem bigval_cons (d : Nat) (ds : List Nat) :
    bigval (d :: ds) = d + B32 * bigval ds := rfl

theorem B32_pos : 0 < B32 := by decide

theorem bigval_replicate_zero (n : Nat) : bigval (List.replicate n 0) = 0 := by
  induction n with
  | zero => rfl
  | succ n ih => simp [List.replicate, bigval_cons, ih]

theorem bigval_append (l₁ l₂ : List Nat) :
    bigval (l₁ ++ l₂) = bigval l₁ + B32 ^ l₁.length * bigval l₂ := by
  induction l₁ with
  | nil => simp [bigval]
  | cons d ds ih =>
      simp [bigval_cons, ih, pow_succ]
      ring

theorem bigval_lt (l : List Nat) (h : ∀ x ∈ l, x < B32) :
    bigval l < B32 ^ l.length := by
  induction l with
  | nil => simp [bigval]
  | cons d ds ih =>
      have hd : d < B32 := h d (by simp)
      have hds : bigval ds < B32 ^ ds.length := ih (fun x hx => h x (by simp [hx]))
      have : d + B32 * bigval ds < B32 + B32 * bigval ds := by omega
      calc bigval (d :: ds) = d + B32 * bigval ds := rfl
        _ < B32 * (bigval ds + 1) := by ring_nf; omega
        _ ≤ B32 * B32 ^ ds.length := by
            exact Nat.mul_le_mul_left _ (by omega)
        _ = B32 ^ (d :: ds).length := by
            simp [List.length_cons, pow_succ]; ring

theorem bigval_take_drop (l : List Nat) (k : Nat) :
    bigval l = bigval (l.take k) + B32 ^ (l.take k).length * bigval (l.drop k) := by
  conv_lhs => rw [← List.take_append_drop k l]
  rw [bigval_append]

/-- A list of zero numeric value is all zero words. -/
theorem eq_replicate_of_bigval_zero (l : List Nat) (h : bigval l = 0) :
    l = List.replicate l.length 0 := by
  induction l with
  | nil => rfl
  | cons d ds ih =>
      have hval : bigval (d :: ds) = d + B32 * bigval ds := rfl
      rw [hval] at h
      have hd : d = 0 := by omega
      have hds : bigval ds = 0 := by
        have hB := B32_pos
        rcases Nat.mul_eq_zero.mp (by omega : B32 * bigval ds = 0) with h' | h'
        · omega
        · exact h'
      rw [hd, List.length_cons, List.replicate_succ]
      exact congrArg (0 :: ·) (ih hds)

/-- A value smaller than the base forces the canonical one-word form. -/
theorem bigval_canonical (l : List Nat) (hv : bigval l < B32) (hne : l ≠ []) :
    l = bigval l :: List.replicate (l.length - 1) 0 := by
  cases l with
  | nil => exact absurd rfl hne
  | cons d ds =>
      have hval : bigval (d :: ds) = d + B32 * bigval ds := rfl
      have hds0 : bigval ds = 0 := by
        rw [hval] at hv
        by_contra hne0
        have : 1 ≤ bigval ds := Nat.one_le_iff_ne_zero.mpr hne0
        have : B32 ≤ B32 * bigval ds := Nat.le_mul_of_pos_right _ (by omega)
        omega
      have hds := eq_replicate_of_bigval_zero ds hds0
      rw [hval, hds0, Nat.mul_zero, Nat.add_zero]
      simp [List.length_cons]
      exact hds

/-! ## BigNum helpers (`bigint_copy`, `bigint_set_u32`, `bigint_equal`) -/

theorem bigval_set_u32 (v w : Nat) : bigval (bigint_set_u32 v w) = v := by
  simp [bigint_set_u32, bigval_cons, bigval_replicate_zero]

/-! ## `modmul_sw`: schoolbook multiply, then compare-and-subtract reduction

The C code accumulates the double-width product into `tmp[0 .. 2*nwords-1]`
(each entry is kept `< 2^32`: inner products are truncated with a `(u32)`
cast and the carry pushed into `tmp[i + nwords]`, a slot that is still at
its initial zero), copies the LOW `nwords` words into `R`, and then
repeatedly subtracts `N` while the most-significant-word-first comparison
reports `R` strictly greater than `N`.  The embedding processes one row of
the schoolbook product per outer step, shifting the accumulator window by
one word per row exactly as `tmp[i + j]` does. -/

/-! ### Value semantics of the schoolbook multiply phase -/

theorem mulRow_length (t b : List Nat) (a c : Nat) :
    (mulRow t b a c).length = t.length := by
  induction t generalizing b c with
  | nil => cases b <;> rfl
  | cons x ts ih =>
      cases b with
      | nil => rfl
      | cons bb bs => simp [mulRow, ih]

theorem mulRow_val (t b : List Nat) (a c : Nat) (h : b.length < t.length) :
    bigval (mulRow t b a c) = bigval t + a * bigval b + c := by
  induction b generalizing t c with
  | nil =>
      cases t with
      | nil => simp at h
      | cons x ts => simp [mulRow, bigval_cons, bigval]; ring
  | cons bb bs ih =>
      cases t with
      | nil => simp at h
      | cons x ts =>
          have hlen : bs.length < ts.length := by simpa using h
          simp only [mulRow, bigval_cons, ih ts _ hlen]
          have hsplit : (x + a * bb + c) % B32 + B32 * ((x + a * bb + c) / B32) =
              x + a * bb + c := Nat.mod_add_div _ _
          ring_nf
          ring_nf at hsplit
          nlinarith [hsplit]

theorem mulRow_drop (t b : List Nat) (a c : Nat) :
    (mulRow t b a c).drop (b.length + 1) = t.drop (b.length + 1) := by
  induction b generalizing t c with
  | nil => cases t <;> rfl
  | cons bb bs ih =>
      cases t with
      | nil => rfl
      | cons x ts => simp [mulRow, ih]

theorem mulRow_bounds (t b : List Nat) (a c : Nat)
    (ht : ∀ x ∈ t, x < B32) (hb : ∀ x ∈ b, x < B32) (ha : a < B32) (hc : c < B32)
    (hz : ∀ x ∈ t.drop b.length, x = 0) :
    ∀ x ∈ mulRow t b a c, x < B32 := by
  induction b generalizing t c with
  | nil =>
      cases t with
      | nil => intro x hx; cases hx
      | cons y ts =>
          have hy : y = 0 := hz y (by simp)
          intro x hx
          rcases List.mem_cons.mp hx with hx | hx
          · omega
          · exact ht x (by simp [hx])
  | cons bb bs ih =>
      cases t with
      | nil => intro x hx; cases hx
      | cons y ts =>
          intro x hx
          have hy : y < B32 := ht y (by simp)
          have hbb : bb < B32 := hb bb (by simp)
          have hv : y + a * bb + c < B32 * B32 := by nlinarith
          rcases List.mem_cons.mp hx with hx | hx
          · have := Nat.mod_lt (y + a * bb + c) B32_pos
            omega
          · exact ih ts _ (fun z hz' => ht z (by simp [hz']))
              (fun z hz' => hb z (by simp [hz']))
              (Nat.div_lt_of_lt_mul hv)
              (by simpa using hz) x hx

theorem mulAcc_cons (a : Nat) (as' bl tmp : List Nat) (t : Nat) (ts : List Nat)
    (htmp : mulRow tmp bl a 0 = t :: ts) :
    mulAcc (a :: as') bl tmp = t :: mulAcc as' bl ts := by
  simp only [mulAcc, htmp]

/-- The accumulator row is nonempty whenever the window is. -/
theorem mulRow_ne_nil (tmp bl : List Nat) (a : Nat) (h : 0 < tmp.length) :
    ∃ t ts, mulRow tmp bl a 0 = t :: ts := by
  have hlen := mulRow_length tmp bl a 0
  cases hr : mulRow tmp bl a 0 with
  | nil => rw [hr] at hlen; simp at hlen; omega
  | cons t ts => exact ⟨t, ts, rfl⟩

theorem mulAcc_length (as bl tmp : List Nat) (h : tmp.length ≥ as.length) :
    (mulAcc as bl tmp).length = tmp.length := by
  induction as generalizing tmp with
  | nil => rfl
  | cons a as' ih =>
      obtain ⟨t, ts, htmp⟩ := mulRow_ne_nil tmp bl a (by simp at h; omega)
      have hlen := mulRow_length tmp bl a 0
      rw [htmp] at hlen; simp at hlen
      rw [mulAcc_cons a as' bl tmp t ts htmp, List.length_cons,
        ih ts (by simp at h; omega)]
      omega

theorem mulAcc_val (as bl tmp : List Nat)
    (h : tmp.length ≥ as.length + bl.length) :
    bigval (mulAcc as bl tmp) = bigval tmp + bigval as * bigval bl := by
  induction as generalizing tmp with
  | nil => simp [mulAcc, bigval]
  | cons a as' ih =>
      have hrow : bl.length < tmp.length := by simp at h; omega
      obtain ⟨t, ts, htmp⟩ := mulRow_ne_nil tmp bl a (by omega)
      have hlen := mulRow_length tmp bl a 0
      rw [htmp] at hlen; simp at hlen
      have hval := mulRow_val tmp bl a 0 hrow
      rw [htmp] at hval
      rw [mulAcc_cons a as' bl tmp t ts htmp, bigval_cons,
        ih ts (by simp at h; omega)]
      have hrow' : t + B32 * bigval ts = bigval tmp + a * bigval bl := by
        simpa [bigval_cons] using hval
      have hcons : bigval (a :: as') = a + B32 * bigval as' := rfl
      rw [hcons]
      nlinarith [hrow']

theorem mulAcc_bounds (as bl tmp : List Nat)
    (hb : ∀ x ∈ bl, x < B32) (has : ∀ x ∈ as, x < B32)
    (ht : ∀ x ∈ tmp, x < B32) (hz : ∀ x ∈ tmp.drop bl.length, x = 0)
    (h : tmp.length ≥ as.length + bl.length) :
    ∀ x ∈ mulAcc as bl tmp, x < B32 := by
  induction as generalizing tmp with
  | nil => exact ht
  | cons a as' ih =>
      obtain ⟨t, ts, htmp⟩ := mulRow_ne_nil tmp bl a (by simp at h; omega)
      have hlen := mulRow_length tmp bl a 0
      rw [htmp] at hlen; simp at hlen
      have hbnd := mulRow_bounds tmp bl a 0 ht hb (has a (by simp)) B32_pos hz
      rw [htmp] at hbnd
      have hdrop := mulRow_drop tmp bl a 0
      rw [htmp] at hdrop
      intro x hx
      rw [mulAcc_cons a as' bl tmp t ts htmp] at hx
      rcases List.mem_cons.mp hx with hx | hx
      · exact hx ▸ hbnd t (by simp)
      · refine ih ts (fun z hz' => has z (by simp [hz']))
            (fun z hz' => hbnd z (by simp [hz']))
            (fun z hz' => ?_) (by simp at h; omega) x hx
        have hz2 : z ∈ (t :: ts).drop (bl.length + 1) := by simpa using hz'
        rw [hdrop] at hz2
        have heq : tmp.drop (bl.length + 1) = (tmp.drop bl.length).drop 1 := by
          rw [List.drop_drop]
        rw [heq] at hz2
        exact hz z (List.mem_of_mem_drop hz2)

/-! ### The comparison and the subtraction of the reduction loop -/

/-- The MSW-first lexicographic comparison agrees with numeric comparison
for equal-length word lists with in-range words. -/
theorem cmpMSW_eq (r n : List Nat) (hlen : r.length = n.length)
    (hr : ∀ x ∈ r, x < B32) (hn : ∀ x ∈ n, x < B32) :
    cmpMSW r n =
      (if bigval n < bigval r then .gt
       else if bigval r < bigval n then .lt else .eq) := by
  induction r generalizing n with
  | nil =>
      cases n with
      | nil => simp [cmpMSW, bigval]
      | cons _ _ => simp at hlen
  | cons x rs ih =>
      cases n with
      | nil => simp at hlen
      | cons y ns =>
          have hx : x < B32 := hr x (by simp)
          have hy : y < B32 := hn y (by simp)
          have ihs := ih ns (by simpa using hlen)
            (fun z hz => hr z (by simp [hz])) (fun z hz => hn z (by simp [hz]))
          have hvr : bigval (x :: rs) = x + B32 * bigval rs := rfl
          have hvn : bigval (y :: ns) = y + B32 * bigval ns := rfl
          rcases Nat.lt_trichotomy (bigval rs) (bigval ns) with hlt | heq | hgt
          · have htot : bigval (x :: rs) < bigval (y :: ns) := by
              rw [hvr, hvn]; nlinarith
            have hcm : cmpMSW rs ns = .lt := by
              rw [ihs]; simp [Nat.not_lt.mpr (Nat.le_of_lt hlt), hlt]
            simp [cmpMSW, hcm, htot, Nat.not_lt.mpr (Nat.le_of_lt htot)]
          · have hcm : cmpMSW rs ns = .eq := by rw [ihs]; simp [heq]
            rcases Nat.lt_trichotomy x y with hxy | hxy | hxy
            · have htot : bigval (x :: rs) < bigval (y :: ns) := by
                rw [hvr, hvn, heq]; omega
              simp [cmpMSW, hcm, htot, Nat.not_lt.mpr (Nat.le_of_lt htot),
                Nat.not_lt.mpr (Nat.le_of_lt hxy), hxy]
            · subst hxy
              have htot : bigval (x :: rs) = bigval (x :: ns) := by
                rw [hvr, hvn, heq]
              simp [cmpMSW, hcm, htot]
            · have htot : bigval (y :: ns) < bigval (x :: rs) := by
                rw [hvr, hvn, heq]; omega
              simp [cmpMSW, hcm, htot, hxy]
          · have htot : bigval (y :: ns) < bigval (x :: rs) := by
              rw [hvr, hvn]; nlinarith
            have hcm : cmpMSW rs ns = .gt := by rw [ihs]; simp [hgt]
            simp [cmpMSW, hcm, htot]

/-- The C `ge` flag is a strict numeric greater-than test. -/
theorem geFlag_eq (r n : List Nat) (hlen : r.length = n.length)
    (hr : ∀ x ∈ r, x < B32) (hn : ∀ x ∈ n, x < B32) :
    geFlag r n = decide (bigval n < bigval r) := by
  rw [geFlag, cmpMSW_eq r n hlen hr hn]
  by_cases h : bigval n < bigval r
  · rw [if_pos h]
    simp [h]
    try decide
  · rw [if_neg h]
    by_cases h2 : bigval r < bigval n
    · rw [if_pos h2]
      simp only [decide_eq_false h]
      decide
    · rw [if_neg h2]
      simp only [decide_eq_false h]
      decide

theorem subWords_length (r n : List Nat) (b : Nat) :
    (subWords r n b).length = r.length := by
  induction r generalizing n b with
  | nil => cases n <;> rfl
  | cons x rs ih =>
      cases n with
      | nil => rfl
      | cons y ns =>
          by_cases h : x < y + b <;> simp [subWords, h, ih]

theorem subWords_val (r n : List Nat) (b : Nat) (hlen : r.length = n.length)
    (hn : ∀ x ∈ n, x < B32) (hb : b ≤ 1) :
    bigval (subWords r n b) + bigval n + b =
      bigval r + B32 ^ r.length * subBorrow r n b := by
  induction r generalizing n b with
  | nil =>
      cases n with
      | nil => simp [subWords, subBorrow, bigval]
      | cons _ _ => simp at hlen
  | cons x rs ih =>
      cases n with
      | nil => simp at hlen
      | cons y ns =>
          have hy : y < B32 := hn y (by simp)
          have ihs := ih ns (if x < y + b then 1 else 0) (by simpa using hlen)
            (fun z hz => hn z (by simp [hz])) (by split <;> omega)
          by_cases hxy : x < y + b
          · have hstep :
                subWords (x :: rs) (y :: ns) b =
                  (x + B32 - (y + b)) :: subWords rs ns 1 := by
              simp [subWords, hxy]
            have hbor : subBorrow (x :: rs) (y :: ns) b = subBorrow rs ns 1 := by
              simp [subBorrow, hxy]
            rw [if_pos hxy] at ihs
            rw [hstep, hbor, bigval_cons, bigval_cons, List.length_cons]
            have hp : B32 ^ (rs.length + 1) * subBorrow rs ns 1 =
                B32 * (B32 ^ rs.length * subBorrow rs ns 1) := by ring
            rw [hp, bigval_cons]
            generalize B32 ^ rs.length * subBorrow rs ns 1 = A at ihs ⊢
            have hB : B32 = 4294967296 := by decide
            rw [hB]
            rw [hB] at hy
            omega
          · have hstep :
                subWords (x :: rs) (y :: ns) b =
                  (x - (y + b)) :: subWords rs ns 0 := by
              simp [subWords, hxy]
            have hbor : subBorrow (x :: rs) (y :: ns) b = subBorrow rs ns 0 := by
              simp [subBorrow, hxy]
            rw [if_neg hxy] at ihs
            rw [hstep, hbor, bigval_cons, bigval_cons, List.length_cons]
            have hp : B32 ^ (rs.length + 1) * subBorrow rs ns 0 =
                B32 * (B32 ^ rs.length * subBorrow rs ns 0) := by ring
            rw [hp, bigval_cons]
            generalize B32 ^ rs.length * subBorrow rs ns 0 = A at ihs ⊢
            have hB : B32 = 4294967296 := by decide
            rw [hB]
            rw [hB] at hy
            omega

theorem subWords_bounds (r n : List Nat) (b : Nat)
    (hr : ∀ x ∈ r, x < B32) (hn : ∀ x ∈ n, x < B32) (hb : b ≤ 1) :
    ∀ x ∈ subWords r n b, x < B32 := by
  induction r generalizing n b with
  | nil => intro x hx; cases n <;> cases hx
  | cons x rs ih =>
      cases n with
      | nil => exact hr
      | cons y ns =>
          have hx' : x < B32 := hr x (by simp)
          have hy : y < B32 := hn y (by simp)
          intro z hz
          by_cases hxy : x < y + b
          · rw [show subWords (x :: rs) (y :: ns) b =
                (x + B32 - (y + b)) :: subWords rs ns 1 by simp [subWords, hxy]] at hz
            rcases List.mem_cons.mp hz with hz | hz
            · omega
            · exact ih ns 1 (fun w hw => hr w (by simp [hw]))
                (fun w hw => hn w (by simp [hw])) le_rfl z hz
          · rw [show subWords (x :: rs) (y :: ns) b =
                (x - (y + b)) :: subWords rs ns 0 by simp [subWords, hxy]] at hz
            rcases List.mem_cons.mp hz with hz | hz
            · omega
            · exact ih ns 0 (fun w hw => hr w (by simp [hw]))
                (fun w hw => hn w (by simp [hw])) (by omega) z hz

/-- When no numeric underflow happens the borrow is zero and the word-wise
subtraction computes the exact difference. -/
theorem subWords_val_of_le (r n : List Nat) (hlen : r.length = n.length)
    (hr : ∀ x ∈ r, x < B32) (hn : ∀ x ∈ n, x < B32)
    (h : bigval n ≤ bigval r) :
    bigval (subWords r n 0) = bigval r - bigval n := by
  have hval := subWords_val r n 0 hlen hn (by omega)
  have hwlt : bigval (subWords r n 0) < B32 ^ r.length := by
    have := bigval_lt (subWords r n 0) (subWords_bounds r n 0 hr hn (by omega))
    rwa [subWords_length] at this
  have hrlt : bigval r < B32 ^ r.length := by
    have := bigval_lt r hr
    exact this
  rcases Nat.lt_or_ge (subBorrow r n 0) 1 with hb0 | hb1
  · interval_cases h' : subBorrow r n 0
    · omega
  · have : B32 ^ r.length * 1 ≤ B32 ^ r.length * subBorrow r n 0 :=
      Nat.mul_le_mul_left _ hb1
    omega

/-! ### The compare-and-subtract loop -/

theorem reduceLoop_spec (n : List Nat) (hn : ∀ x ∈ n, x < B32)
    (hpos : 1 ≤ bigval n) :
    ∀ fuel r, r.length = n.length → (∀ x ∈ r, x < B32) → bigval r < fuel →
      (reduceLoop fuel r n).length = n.length ∧
      (∀ x ∈ reduceLoop fuel r n, x < B32) ∧
      bigval (reduceLoop fuel r n) = reduceSpec (bigval r) (bigval n) := by
  intro fuel
  induction fuel with
  | zero => intro r _ _ hlt; omega
  | succ f ih =>
      intro r hlen hr hlt
      rw [reduceLoop]
      rw [geFlag_eq r n hlen hr hn]
      by_cases hgt : bigval n < bigval r
      · rw [if_pos (by simp [hgt])]
        have hsub_len : (subWords r n 0).length = n.length := by
          rw [subWords_length]; exact hlen
        have hsub_bnd := subWords_bounds r n 0 hr hn (by omega)
        have hsub_val := subWords_val_of_le r n hlen hr hn (Nat.le_of_lt hgt)
        have hdec : bigval (subWords r n 0) < f := by omega
        obtain ⟨h1, h2, h3⟩ := ih (subWords r n 0) hsub_len hsub_bnd hdec
        refine ⟨h1, h2, ?_⟩
        rw [h3, hsub_val]
        unfold reduceSpec
        have hdvd : bigval n ∣ bigval r - bigval n ↔ bigval n ∣ bigval r := by
          constructor
          · intro h
            have := Nat.dvd_add h (dvd_refl (bigval n))
            rwa [Nat.sub_add_cancel (Nat.le_of_lt hgt)] at this
          · intro h
            exact Nat.dvd_sub' h (dvd_refl _)
        by_cases hd : bigval n ∣ bigval r
        · have hne : bigval r - bigval n ≠ 0 := by
            rcases hd with ⟨k, hk⟩
            have hk2 : 2 ≤ k := by nlinarith
            have : 2 * bigval n ≤ bigval r := by nlinarith
            omega
          rw [if_pos ⟨hdvd.mpr hd, hne⟩, if_pos ⟨hd, by omega⟩]
        · rw [if_neg (by tauto), if_neg (by tauto)]
          have : bigval r - bigval n + bigval n = bigval r :=
            Nat.sub_add_cancel (Nat.le_of_lt hgt)
          conv_rhs => rw [← this]
          rw [Nat.add_mod_right]
      · rw [if_neg (by simp [hgt])]
        refine ⟨hlen, hr, ?_⟩
        unfold reduceSpec
        rcases Nat.lt_or_ge (bigval r) (bigval n) with hlt' | hge
        · have hnd : ¬ (bigval n ∣ bigval r ∧ bigval r ≠ 0) := by
            rintro ⟨hd, hne⟩
            exact absurd (Nat.le_of_dvd (by omega) hd) (by omega)
          rw [if_neg hnd, Nat.mod_eq_of_lt hlt']
        · have heq : bigval r = bigval n := by omega
          rw [if_pos ⟨heq ▸ dvd_refl _, by omega⟩, heq]

/-- Full characterization of `modmul_sw`: the double-width product is
truncated to the low `nwords` words, then reduced per `reduceSpec`. -/
theorem modmul_sw_spec (A B N : List Nat) (w : Nat)
    (hA : A.length = w) (hB : B.length = w) (hN : N.length = w)
    (hAb : ∀ x ∈ A, x < B32) (hBb : ∀ x ∈ B, x < B32) (hNb : ∀ x ∈ N, x < B32)
    (hpos : 1 ≤ bigval N) :
    (modmul_sw A B N w).length = w ∧
    (∀ x ∈ modmul_sw A B N w, x < B32) ∧
    bigval (modmul_sw A B N w) =
      reduceSpec ((bigval A * bigval B) % B32 ^ w) (bigval N) := by
  have htakeA : A.take w = A := by rw [← hA, List.take_length]
  have htakeB : B.take w = B := by rw [← hB, List.take_length]
  have hzlen : (List.replicate (2 * w) 0).length = 2 * w := by simp
  have hzb : ∀ x ∈ List.replicate (2 * w) 0, x < B32 := by
    intro x hx
    rw [List.eq_of_mem_replicate hx]
    exact B32_pos
  have hzz : ∀ x ∈ (List.replicate (2 * w) 0).drop (B.length), x = 0 := by
    intro x hx
    exact List.eq_of_mem_replicate (List.mem_of_mem_drop hx)
  have hacc_len : (mulAcc A B (List.replicate (2 * w) 0)).length = 2 * w := by
    rw [mulAcc_length _ _ _ (by rw [hzlen, hA]; omega), hzlen]
  have hacc_val : bigval (mulAcc A B (List.replicate (2 * w) 0)) =
      bigval A * bigval B := by
    rw [mulAcc_val _ _ _ (by rw [hzlen, hA, hB]; omega), bigval_replicate_zero]
    omega
  have hacc_bnd : ∀ x ∈ mulAcc A B (List.replicate (2 * w) 0), x < B32 :=
    mulAcc_bounds A B _ hBb hAb hzb hzz (by rw [hzlen, hA, hB]; omega)
  set tmp := mulAcc A B (List.replicate (2 * w) 0) with htmp
  have hr_len : (tmp.take w).length = w := by
    rw [List.length_take, hacc_len]; omega
  have hr_bnd : ∀ x ∈ tmp.take w, x < B32 := by
    intro x hx; exact hacc_bnd x (List.mem_of_mem_take hx)
  have hr_val : bigval (tmp.take w) = (bigval A * bigval B) % B32 ^ w := by
    have hsplit := bigval_take_drop tmp w
    have hlow : bigval (tmp.take w) < B32 ^ w := by
      have := bigval_lt (tmp.take w) hr_bnd
      rwa [hr_len] at this
    rw [hr_len] at hsplit
    rw [← hacc_val, hsplit, Nat.add_mul_mod_self_left,
      Nat.mod_eq_of_lt hlow]
  have := reduceLoop_spec N hNb hpos (bigval (tmp.take w) + 1) (tmp.take w)
    (by rw [hr_len, hN]) hr_bnd (by omega)
  obtain ⟨h1, h2, h3⟩ := this
  have hfold : modmul_sw A B N w =
      reduceLoop (bigval (tmp.take w) + 1) (tmp.take w) N := by
    rw [modmul_sw]
    rw [htakeA, htakeB]
  rw [hfold]
  exact ⟨by rw [h1, hN], h2, by rw [h3, hr_val]⟩

/-! ## Claims C2, C4, C9: the software modular multiply -/

/-- C2: the claim states `modmul_sw` returns `(value A * value B) mod value N`
for reduced operands and odd `N`.  The code violates this: with `nwords = 1`,
`A = B = [3]`, `N = [9]` (odd, operands reduced), the product `9` is an exact
non-zero multiple of `N`, the MSW-first comparison reports `R = N` as not
greater, and the loop stops at `[9]`, whereas `(3 * 3) mod 9 = 0`.  This also
contradicts the code's own comment `R = (A * B) mod N`. -/
theorem C2_modmul_sw_not_mod :
    modmul_sw [3] [3] [9] 1 = [9] ∧ (3 * 3) % 9 = 0 ∧ bigval [9] = 9 := by
  refine ⟨by decide, by decide, by decide⟩

/-- C4: the claim states the reduction loop keeps subtracting while the
retained words are greater than *or equal to* `N`, so the result is always
strictly below `N`.  The code stops at equality: with `nwords = 1`,
`A = [1]`, `B = [9]`, `N = [9]` the result is `[9]`, whose value equals
`value N` rather than being strictly less. -/
theorem C4_modmul_sw_result_not_lt :
    modmul_sw [1] [9] [9] 1 = [9] ∧
    ¬ bigval (modmul_sw [1] [9] [9] 1) < bigval [9] := by
  refine ⟨by decide, by decide⟩

/-- Subtracting an all-zero modulus changes nothing. -/
theorem subWords_replicate_zero (R : List Nat) (m : Nat) :
    subWords R (List.replicate m 0) 0 = R := by
  induction R generalizing m with
  | nil => cases m <;> rfl
  | cons x rs ih =>
      cases m with
      | zero => rfl
      | succ m' =>
          rw [List.replicate_succ]
          have hnlt : ¬ x < 0 + 0 := by omega
          simp only [subWords, hnlt, if_false]
          rw [Nat.add_zero, Nat.sub_zero]
          exact congrArg (x :: ·) (ih m')

/-- C9: for any width and any modulus of numeric value ≥ 1, the
compare-and-subtract loop of `modmul_sw` reaches its exit condition after
finitely many subtraction steps (each taken subtraction strictly decreases
the value by `value N ≥ 1`); and the precondition is necessary: for a
zero-valued `N` and a non-zero accumulator the exit condition never becomes
true, so the `for(;;)` loop would spin forever. -/
theorem C9_reduce_loop_termination (R N : List Nat)
    (hlen : R.length = N.length)
    (hR : ∀ x ∈ R, x < B32) (hN : ∀ x ∈ N, x < B32) :
    (1 ≤ bigval N →
      ∃ k, geFlag ((fun L => subWords L N 0)^[k] R) N = false) ∧
    (bigval N = 0 → bigval R ≠ 0 →
      ∀ k, geFlag ((fun L => subWords L N 0)^[k] R) N = true) := by
  constructor
  · intro hpos
    have main : ∀ v R', bigval R' = v → R'.length = N.length →
        (∀ x ∈ R', x < B32) →
        ∃ k, geFlag ((fun L => subWords L N 0)^[k] R') N = false := by
      intro v
      induction v using Nat.strong_induction_on with
      | _ v ih =>
          intro R' hv hlen' hR'
          by_cases hg : geFlag R' N = false
          · exact ⟨0, hg⟩
          · have hgt : bigval N < bigval R' := by
              have := geFlag_eq R' N hlen' hR' hN
              rw [this] at hg
              simpa using hg
            have hval := subWords_val_of_le R' N hlen' hR' hN (Nat.le_of_lt hgt)
            have hdec : bigval (subWords R' N 0) < v := by omega
            obtain ⟨k, hk⟩ := ih (bigval (subWords R' N 0)) hdec (subWords R' N 0)
              rfl (by rw [subWords_length]; exact hlen')
              (subWords_bounds R' N 0 hR' hN (by omega))
            exact ⟨k + 1, by rwa [Function.iterate_succ_apply]⟩
    exact main (bigval R) R rfl hlen hR
  · intro hz hnz k
    have hNrep : N = List.replicate N.length 0 := eq_replicate_of_bigval_zero N hz
    have hfix : subWords R N 0 = R := by
      rw [hNrep]
      exact subWords_replicate_zero R N.length
    rw [Function.iterate_fixed hfix]
    rw [geFlag_eq R N hlen hR hN, hz]
    simpa using Nat.pos_of_ne_zero hnz

/-- C9 witness: a concrete run of the loop terminating for `N = [3]`. -/
theorem C9_reduce_loop_termination_witness :
    (([5] : List Nat).length = ([3] : List Nat).length) ∧ 1 ≤ bigval [3] ∧
    ∃ k, geFlag ((fun L => subWords L [3] 0)^[k] [5]) [3] = false :=
  ⟨rfl, by decide,
    (C9_reduce_loop_termination [5] [3] rfl (by decide) (by decide)).1 (by decide)⟩

/-! ## `modexp_sw_scalar`: the software square-and-multiply engine -/

/-! ### Helper arithmetic lemmas -/

theorem mod_two_pow_succ (e bits : Nat) :
    e % 2 ^ (bits + 1) = e % 2 + 2 * (e / 2 % 2 ^ bits) := by
  have ha := Nat.div_add_mod e 2
  have hb := Nat.div_add_mod (e / 2) (2 ^ bits)
  have hr : e % 2 < 2 := Nat.mod_lt _ (by omega)
  have hK : 0 < 2 ^ bits := Nat.pos_pow_of_pos _ (by omega)
  have hm : e / 2 % 2 ^ bits < 2 ^ bits := Nat.mod_lt _ hK
  have hlt : e % 2 + 2 * (e / 2 % 2 ^ bits) < 2 ^ (bits + 1) := by
    rw [pow_succ]; omega
  have hsplit : e = 2 ^ (bits + 1) * (e / 2 / 2 ^ bits) +
      (e % 2 + 2 * (e / 2 % 2 ^ bits)) := by
    rw [pow_succ]
    nlinarith [ha, hb]
  conv_lhs => rw [hsplit]
  rw [Nat.mul_add_mod, Nat.mod_eq_of_lt hlt]

theorem modexp_step_odd (X A t n : Nat) :
    ((X * A % n) * (A * A % n) ^ t) % n = (X * A ^ (1 + 2 * t)) % n := by
  conv_lhs => rw [Nat.mul_mod, Nat.mod_mod_of_dvd _ dvd_rfl, ← Nat.pow_mod]
  conv_lhs => rw [← Nat.mul_mod]
  congr 1
  ring

theorem modexp_step_even (X A t n : Nat) :
    (X * (A * A % n) ^ t) % n = (X * A ^ (2 * t)) % n := by
  conv_lhs => rw [Nat.mul_mod, ← Nat.pow_mod, ← Nat.mul_mod]
  congr 1
  ring

theorem coprime_mod_of_coprime (u n : Nat) (h : Nat.Coprime u n) :
    Nat.Coprime (u % n) n := by
  unfold Nat.Coprime at *
  rw [Nat.gcd_comm] at h
  rw [Nat.gcd_rec n u] at h
  exact h

/-- On a "good" set of residues (an invariant `P` closed under modular
products and under which products never land on a non-zero multiple of
`N`), `modmul_sw` computes the exact modular product. -/
theorem modmul_sw_good (N : List Nat) (w : Nat) (P : Nat → Prop)
    (hN : N.length = w) (hNb : ∀ x ∈ N, x < B32) (hN2 : 2 ≤ bigval N)
    (hfit : bigval N * bigval N ≤ B32 ^ w)
    (hgood : ∀ u v : Nat, P u → P v → u < bigval N → v < bigval N →
      bigval N ∣ u * v → u * v = 0)
    (x a : List Nat)
    (hx : x.length = w) (ha : a.length = w)
    (hxb : ∀ z ∈ x, z < B32) (hab : ∀ z ∈ a, z < B32)
    (hxN : bigval x < bigval N) (haN : bigval a < bigval N)
    (hPx : P (bigval x)) (hPa : P (bigval a)) :
    (modmul_sw x a N w).length = w ∧
    (∀ z ∈ modmul_sw x a N w, z < B32) ∧
    bigval (modmul_sw x a N w) = (bigval x * bigval a) % bigval N := by
  obtain ⟨h1, h2, h3⟩ := modmul_sw_spec x a N w hx ha hN hxb hab hNb (by omega)
  refine ⟨h1, h2, ?_⟩
  rw [h3]
  have hprod_lt : bigval x * bigval a < B32 ^ w := by
    obtain ⟨m, hm⟩ : ∃ m, bigval N = m + 1 := ⟨bigval N - 1, by omega⟩
    rw [hm] at hxN haN hfit
    have hle : bigval x * bigval a ≤ m * m :=
      Nat.mul_le_mul (by omega) (by omega)
    have hlt2 : m * m < (m + 1) * (m + 1) := by nlinarith
    exact lt_of_le_of_lt hle (lt_of_lt_of_le hlt2 hfit)
  rw [Nat.mod_eq_of_lt hprod_lt]
  unfold reduceSpec
  by_cases hd : bigval N ∣ bigval x * bigval a
  · have h0 : bigval x * bigval a = 0 := hgood _ _ hPx hPa hxN haN hd
    rw [if_neg (by simp [h0]), h0]
  · rw [if_neg (by tauto)]

/-- Value of the software square-and-multiply loop on a good invariant:
`x * a ^ (e mod 2^bits) mod N`. -/
theorem modexp_sw_loop_val (N : List Nat) (w : Nat) (P : Nat → Prop)
    (hN : N.length = w) (hNb : ∀ x ∈ N, x < B32) (hN2 : 2 ≤ bigval N)
    (hfit : bigval N * bigval N ≤ B32 ^ w)
    (hgood : ∀ u v : Nat, P u → P v → u < bigval N → v < bigval N →
      bigval N ∣ u * v → u * v = 0)
    (hclosed : ∀ u v : Nat, P u → P v → P (u * v % bigval N)) :
    ∀ bits e x a, x.length = w → a.length = w →
      (∀ z ∈ x, z < B32) → (∀ z ∈ a, z < B32) →
      bigval x < bigval N → bigval a < bigval N →
      P (bigval x) → P (bigval a) →
      (modexp_sw_loop N w bits e x a).length = w ∧
      (∀ z ∈ modexp_sw_loop N w bits e x a, z < B32) ∧
      bigval (modexp_sw_loop N w bits e x a) =
        (bigval x * bigval a ^ (e % 2 ^ bits)) % bigval N := by
  intro bits
  induction bits with
  | zero =>
      intro e x a hx ha hxb hab hxN haN hPx hPa
      refine ⟨hx, hxb, ?_⟩
      simp [modexp_sw_loop, Nat.mod_one, Nat.mod_eq_of_lt hxN]
  | succ bits ih =>
      intro e x a hx ha hxb hab hxN haN hPx hPa
      have hNpos : 0 < bigval N := by omega
      obtain ⟨hsq1, hsq2, hsq3⟩ :=
        modmul_sw_good N w P hN hNb hN2 hfit hgood a a ha ha hab hab haN haN hPa hPa
      have hsqN : bigval (modmul_sw a a N w) < bigval N := by
        rw [hsq3]; exact Nat.mod_lt _ hNpos
      have hsqP : P (bigval (modmul_sw a a N w)) := by
        rw [hsq3]; exact hclosed _ _ hPa hPa
      by_cases hbit : e % 2 = 1
      · obtain ⟨hm1, hm2, hm3⟩ :=
          modmul_sw_good N w P hN hNb hN2 hfit hgood x a hx ha hxb hab hxN haN hPx hPa
        have hmN : bigval (modmul_sw x a N w) < bigval N := by
          rw [hm3]; exact Nat.mod_lt _ hNpos
        have hmP : P (bigval (modmul_sw x a N w)) := by
          rw [hm3]; exact hclosed _ _ hPx hPa
        have hstep : modexp_sw_loop N w (bits + 1) e x a =
            modexp_sw_loop N w bits (e / 2) (modmul_sw x a N w) (modmul_sw a a N w) := by
          simp [modexp_sw_loop, hbit]
        rw [hstep]
        obtain ⟨g1, g2, g3⟩ := ih (e / 2) (modmul_sw x a N w) (modmul_sw a a N w)
          hm1 hsq1 hm2 hsq2 hmN hsqN hmP hsqP
        refine ⟨g1, g2, ?_⟩
        rw [g3, hm3, hsq3, mod_two_pow_succ, hbit]
        exact modexp_step_odd _ _ _ _
      · have hbit0 : e % 2 = 0 := by omega
        have hstep : modexp_sw_loop N w (bits + 1) e x a =
            modexp_sw_loop N w bits (e / 2) x (modmul_sw a a N w) := by
          simp [modexp_sw_loop, hbit]
        rw [hstep]
        obtain ⟨g1, g2, g3⟩ := ih (e / 2) x (modmul_sw a a N w)
          hx hsq1 hxb hsq2 hxN hsqN hPx hsqP
        refine ⟨g1, g2, ?_⟩
        rw [g3, hsq3, mod_two_pow_succ, hbit0, Nat.zero_add]
        exact modexp_step_even _ _ _ _

theorem bigint_set_u32_length (v w : Nat) (hw : 1 ≤ w) :
    (bigint_set_u32 v w).length = w := by
  simp [bigint_set_u32]
  omega

theorem bigint_set_u32_bounds (v w : Nat) (hv : v < B32) :
    ∀ z ∈ bigint_set_u32 v w, z < B32 := by
  intro z hz
  rcases List.mem_cons.mp hz with hz | hz
  · omega
  · rw [List.eq_of_mem_replicate hz]
    exact B32_pos

theorem bigint_copy_self (l : List Nat) (w : Nat) (h : l.length = w) :
    bigint_copy l w = l := by
  rw [bigint_copy, ← h, List.take_length]

/-- Full value of `modexp_sw_scalar` over a good invariant `P`:
`base ^ (e mod 2^exp_bits) mod N`.  Note the exponent is the low
`exp_bits` bits of `e`, exactly as the C loop consumes it. -/
theorem modexp_sw_scalar_val (N : List Nat) (w : Nat) (P : Nat → Prop)
    (hN : N.length = w) (hNb : ∀ x ∈ N, x < B32) (hN2 : 2 ≤ bigval N)
    (hfit : bigval N * bigval N ≤ B32 ^ w)
    (hgood : ∀ u v : Nat, P u → P v → u < bigval N → v < bigval N →
      bigval N ∣ u * v → u * v = 0)
    (hclosed : ∀ u v : Nat, P u → P v → P (u * v % bigval N))
    (base : List Nat) (e bits : Nat)
    (hbase : base.length = w) (hbb : ∀ z ∈ base, z < B32)
    (hbN : bigval base < bigval N)
    (hP1 : P 1) (hPb : P (bigval base)) :
    (modexp_sw_scalar base e bits N w).length = w ∧
    (∀ z ∈ modexp_sw_scalar base e bits N w, z < B32) ∧
    bigval (modexp_sw_scalar base e bits N w) =
      bigval base ^ (e % 2 ^ bits) % bigval N := by
  have hw : 1 ≤ w := by
    by_contra hcon
    have hw0 : w = 0 := by omega
    subst hw0
    rw [List.length_eq_zero.mp hN] at hN2
    simp [bigval] at hN2
  have hx_len := bigint_set_u32_length 1 w hw
  have hx_b := bigint_set_u32_bounds 1 w (by decide)
  have hx_val : bigval (bigint_set_u32 1 w) = 1 := bigval_set_u32 1 w
  have ha_eq : bigint_copy base w = base := bigint_copy_self base w hbase
  obtain ⟨g1, g2, g3⟩ := modexp_sw_loop_val N w P hN hNb hN2 hfit hgood hclosed
    bits e (bigint_set_u32 1 w) base hx_len hbase hx_b hbb
    (by rw [hx_val]; omega) hbN (by rw [hx_val]; exact hP1) hPb
  have hres : modexp_sw_scalar base e bits N w =
      modexp_sw_loop N w bits e (bigint_set_u32 1 w) base := by
    rw [modexp_sw_scalar, ha_eq]
    exact bigint_copy_self _ w g1
  rw [hres]
  exact ⟨g1, g2, by rw [g3, hx_val, Nat.one_mul]⟩

/-- Specialization to coprime bases: `modexp_sw_scalar` computes
`base ^ (e mod 2^bits) mod N` whenever `gcd(base, N) = 1`, `N ≥ 2` and
`N^2` fits in `nwords` words. -/
theorem modexp_sw_scalar_coprime (N : List Nat) (w : Nat) (base : List Nat)
    (e bits : Nat)
    (hN : N.length = w) (hNb : ∀ x ∈ N, x < B32) (hN2 : 2 ≤ bigval N)
    (hfit : bigval N * bigval N ≤ B32 ^ w)
    (hbase : base.length = w) (hbb : ∀ z ∈ base, z < B32)
    (hbN : bigval base < bigval N)
    (hcop : Nat.Coprime (bigval base) (bigval N)) :
    (modexp_sw_scalar base e bits N w).length = w ∧
    (∀ z ∈ modexp_sw_scalar base e bits N w, z < B32) ∧
    bigval (modexp_sw_scalar base e bits N w) =
      bigval base ^ (e % 2 ^ bits) % bigval N := by
  refine modexp_sw_scalar_val N w (fun u => Nat.Coprime u (bigval N))
    hN hNb hN2 hfit ?_ ?_ base e bits hbase hbb hbN (Nat.coprime_one_left _) hcop
  · intro u v hu hv _ _ hdvd
    exfalso
    have hmul : Nat.Coprime (u * v) (bigval N) := Nat.Coprime.mul hu hv
    have := Nat.gcd_eq_right hdvd
    rw [Nat.Coprime] at hmul
    omega
  · intro u v hu hv
    exact coprime_mod_of_coprime _ _ (Nat.Coprime.mul hu hv)

/-! ## Claim C3: does the software engine run the spec's Montgomery-domain
algorithm?

`specMontExp` below is written from the spec's words (§4.4 pseudocode), for
the refinement comparison: `x = mul(ONE, R2)`, `a = mul(base, R2)`, the bit
loop, and `result = mul(x, ONE)`.  `specPlainExp` is the same loop skeleton
without the Montgomery entry/exit steps, which is what the code's software
path actually does. -/

/-- C3 counterexample: with the 1-word modulus `N = [7]` and its genuine
Montgomery context (`R2 = [R^2 mod 7] = [2]` since `2^32 ≡ 4 (mod 7)`),
base `[3]`, exponent `1` over `1` bit, the spec's Montgomery-domain
algorithm instantiated with `mul = modmul_sw` yields `[5]`, while the
code's `modexp_sw_scalar` yields `[3]`: the software variant does not
execute the spec's algorithm. -/
theorem C3_sw_not_spec_montgomery_algorithm :
    specMontExp (fun X Y => modmul_sw X Y [7] 1) (bigint_set_u32 1 1) [3] [2] 1 1 = [5] ∧
    modexp_sw_scalar [3] 1 1 [7] 1 = [3] ∧ ([5] : List Nat) ≠ [3] := by
  refine ⟨by decide, by decide, by decide⟩

theorem reduceLoop_length (fuel : Nat) :
    ∀ r n, (reduceLoop fuel r n).length = r.length := by
  induction fuel with
  | zero => intro r n; rfl
  | succ f ih =>
      intro r n
      rw [reduceLoop]
      by_cases hg : geFlag r n
      · rw [if_pos hg, ih, subWords_length]
      · rw [if_neg hg]

theorem modmul_sw_length_any (A B N : List Nat) (w : Nat) :
    (modmul_sw A B N w).length = w := by
  rw [modmul_sw]
  rw [reduceLoop_length]
  rw [List.length_take]
  rw [mulAcc_length _ _ _ (by
    simp only [List.length_replicate]
    have := List.length_take_le w A
    omega)]
  simp only [List.length_replicate]
  omega

theorem modexp_sw_loop_length (N : List Nat) (w : Nat) :
    ∀ bits e x a, x.length = w →
      (modexp_sw_loop N w bits e x a).length = w := by
  intro bits
  induction bits with
  | zero => intro e x a hx; exact hx
  | succ b ih =>
      intro e x a hx
      by_cases hbit : e % 2 = 1
      · rw [show modexp_sw_loop N w (b+1) e x a =
            modexp_sw_loop N w b (e/2) (modmul_sw x a N w) (modmul_sw a a N w) by
              simp [modexp_sw_loop, hbit]]
        exact ih _ _ _ (modmul_sw_length_any x a N w)
      · rw [show modexp_sw_loop N w (b+1) e x a =
            modexp_sw_loop N w b (e/2) x (modmul_sw a a N w) by
              simp [modexp_sw_loop, hbit]]
        exact ih _ _ _ hx

/-- The halving recursion of `modexp_sw_loop` computes the same fold over
bit indices that the spec's pseudocode describes. -/
theorem modexp_sw_loop_eq_fold (N : List Nat) (w : Nat) :
    ∀ bits e x a,
      modexp_sw_loop N w bits e x a =
        ((List.range bits).foldl
          (specStep (fun X Y => modmul_sw X Y N w) e) (x, a)).1 := by
  intro bits
  induction bits with
  | zero => intro e x a; rfl
  | succ b ih =>
      intro e x a
      rw [List.range_succ_eq_map, List.foldl_cons, List.foldl_map]
      have hfun : (fun (s : List Nat × List Nat) (x : Nat) =>
          specStep (fun X Y => modmul_sw X Y N w) e s (Nat.succ x)) =
          specStep (fun X Y => modmul_sw X Y N w) (e / 2) := by
        funext st i
        simp only [specStep]
        rw [show e >>> (Nat.succ i) = (e / 2) >>> i by
          rw [Nat.succ_eq_add_one, Nat.add_comm, Nat.shiftRight_add, Nat.shiftRight_one]]
      rw [hfun]
      have hstep0 : specStep (fun X Y => modmul_sw X Y N w) e (x, a) 0 =
          (if e % 2 = 1 then modmul_sw x a N w else x, modmul_sw a a N w) := by
        simp [specStep, Nat.shiftRight_zero]
      rw [hstep0]
      by_cases hbit : e % 2 = 1
      · rw [if_pos hbit]
        rw [show modexp_sw_loop N w (b+1) e x a =
            modexp_sw_loop N w b (e/2) (modmul_sw x a N w) (modmul_sw a a N w) by
              simp [modexp_sw_loop, hbit]]
        exact ih (e/2) _ _
      · rw [if_neg hbit]
        rw [show modexp_sw_loop N w (b+1) e x a =
            modexp_sw_loop N w b (e/2) x (modmul_sw a a N w) by
              simp [modexp_sw_loop, hbit]]
        exact ih (e/2) _ _

/-- C3 amended: the software variant runs the same LSB-first
conditional-multiply-and-square loop with `mul = modmul_sw`, but enters
with `x = ONE` and `a = base` directly and returns `x` directly — it
performs none of the Montgomery-domain entry/exit multiplications
`mul(ONE, R2)`, `mul(base, R2)`, `mul(x, ONE)` of the spec's §4.4
pseudocode. -/
theorem C3_sw_is_plain_square_and_multiply (base : List Nat) (e bits : Nat)
    (N : List Nat) (w : Nat) (hw : 1 ≤ w) :
    modexp_sw_scalar base e bits N w =
      specPlainExp (fun X Y => modmul_sw X Y N w)
        (bigint_set_u32 1 w) (bigint_copy base w) e bits := by
  rw [modexp_sw_scalar, specPlainExp]
  rw [bigint_copy_self _ w
    (modexp_sw_loop_length N w bits e _ _ (bigint_set_u32_length 1 w hw))]
  exact modexp_sw_loop_eq_fold N w bits e _ _

/-- C3 amended-claim witness at a concrete input. -/
theorem C3_sw_is_plain_square_and_multiply_witness :
    1 ≤ 1 ∧
    modexp_sw_scalar [3] 1 1 [7] 1 =
      specPlainExp (fun X Y => modmul_sw X Y [7] 1)
        (bigint_set_u32 1 1) (bigint_copy [3] 1) 1 1 :=
  ⟨by decide, C3_sw_is_plain_square_and_multiply [3] 1 1 [7] 1 (by decide)⟩

/-! ## The accelerator model and `montgomery_mul_hw`

The device behind the register protocol is modelled by the sequence of
status values it presents to successive polls after `start`, and by the
contents of its result register bank as a function of the operands that
were written into the `A`/`B`/`N` banks and the `n'` register.  One
`HWDev` per accelerator invocation; `modexp_hw_scalar` consumes a stream
of them, one per `montgomery_mul_hw` call. -/

theorem pollFirst_none_iff (s : Nat → Nat) :
    ∀ fuel j, pollFirst fuel s j = none ↔ ∀ i, i < fuel → s (j + i) % 2 = 0 := by
  intro fuel
  induction fuel with
  | zero => intro j; simp [pollFirst]
  | succ f ih =>
      intro j
      by_cases hj : s j % 2 = 1
      · simp only [pollFirst, if_pos hj]
        constructor
        · intro h; cases h
        · intro h
          have := h 0 (by omega)
          rw [Nat.add_zero] at this
          omega
      · have hj0 : s j % 2 = 0 := by omega
        simp only [pollFirst, if_neg hj]
        rw [ih (j + 1)]
        constructor
        · intro h i hi
          cases i with
          | zero => simpa using hj0
          | succ i' =>
              have := h i' (by omega)
              have harith : j + 1 + i' = j + (i' + 1) := by omega
              rwa [harith] at this
        · intro h i hi
          have := h (i + 1) (by omega)
          have harith : j + (i + 1) = j + 1 + i := by omega
          rwa [harith] at this

theorem montgomery_mul_hw_none_iff (dev : HWDev) (w : Nat) (A B N : List Nat)
    (n' : Nat) :
    montgomery_mul_hw dev w A B N n' = none ↔ mulOk dev = false := by
  rw [montgomery_mul_hw, mulOk]
  rcases h : pollFirst (HW_DONE_TIMEOUT + 1) dev.status 0 with _ | j
  · simp
  · simp

/-- C7: with the accelerator presenting a sequence of status values,
`montgomery_mul_hw` fails iff bit 0 is clear on every one of the at most
`HW_DONE_TIMEOUT + 1` status reads the loop performs; the outcome of the
failure path is independent of the result register bank (no result read
can influence it); and on success the function returns exactly `nwords`
words read from the result bank. -/
theorem C7_montgomery_mul_hw_timeout (dev : HWDev) (w : Nat)
    (A B N : List Nat) (n' : Nat) :
    (montgomery_mul_hw dev w A B N n' = none ↔
      ∀ j, j ≤ HW_DONE_TIMEOUT → dev.status j % 2 = 0) ∧
    (∀ res', (montgomery_mul_hw dev w A B N n' = none ↔
      montgomery_mul_hw ⟨dev.status, res'⟩ w A B N n' = none)) ∧
    (∀ out, montgomery_mul_hw dev w A B N n' = some out →
      out.length = w ∧ out = (List.range w).map (dev.res A B N n')) := by
  refine ⟨?_, ?_, ?_⟩
  · rw [montgomery_mul_hw]
    rcases h : pollFirst (HW_DONE_TIMEOUT + 1) dev.status 0 with _ | j
    · simp only [true_iff]
      rw [pollFirst_none_iff] at h
      intro j hj
      have := h j (by omega)
      simpa using this
    · simp only [reduceCtorEq, false_iff]
      intro hall
      have : pollFirst (HW_DONE_TIMEOUT + 1) dev.status 0 = none := by
        rw [pollFirst_none_iff]
        intro i hi
        simpa using hall i (by omega)
      rw [h] at this
      cases this
  · intro res'
    rw [montgomery_mul_hw, montgomery_mul_hw]
    rcases h : pollFirst (HW_DONE_TIMEOUT + 1) dev.status 0 with _ | j <;> simp
  · intro out hout
    rw [montgomery_mul_hw] at hout
    rcases h : pollFirst (HW_DONE_TIMEOUT + 1) dev.status 0 with _ | j <;>
      rw [h] at hout
    · cases hout
    · simp only [Option.some.injEq] at hout
      subst hout
      simp

/-! ## `modexp_hw_scalar` -/

/-- Accounting of the HW bit loop: invocations `k, k+1, ...` up to the
returned index are exactly the ones performed; on failure the last one
performed is the failing one and all earlier ones succeeded. -/
theorem modexp_hw_loop_calls (devs : Nat → HWDev) (w : Nat) (N : List Nat)
    (nprime : Nat) :
    ∀ bits e k x a,
      k ≤ (modexp_hw_loop devs w N nprime bits e k x a).2.2.2 ∧
      ((modexp_hw_loop devs w N nprime bits e k x a).1 = false →
        mulOk (devs ((modexp_hw_loop devs w N nprime bits e k x a).2.2.2 - 1)) = false ∧
        1 ≤ (modexp_hw_loop devs w N nprime bits e k x a).2.2.2 ∧
        ∀ j, k ≤ j → j < (modexp_hw_loop devs w N nprime bits e k x a).2.2.2 - 1 →
          mulOk (devs j) = true) ∧
      ((modexp_hw_loop devs w N nprime bits e k x a).1 = true →
        ∀ j, k ≤ j → j < (modexp_hw_loop devs w N nprime bits e k x a).2.2.2 →
          mulOk (devs j) = true) := by
  intro bits
  induction bits with
  | zero =>
      intro e k x a
      refine ⟨le_rfl, ?_, ?_⟩
      · intro h; cases h
      · intro _ j hj1 hj2
        simp only [modexp_hw_loop] at hj2
        omega
  | succ b ih =>
      intro e k x a
      by_cases hbit : e % 2 = 1
      · rcases h1 : montgomery_mul_hw (devs k) w x a N nprime with _ | x'
        · have hloop : modexp_hw_loop devs w N nprime (b+1) e k x a =
              (false, x, a, k + 1) := by
            simp [modexp_hw_loop, hbit, h1]
          rw [hloop]
          have hbad := (montgomery_mul_hw_none_iff _ _ _ _ _ _).mp h1
          refine ⟨by show k ≤ k + 1; omega, ?_, ?_⟩
          · intro _
            exact ⟨by simpa using hbad, by show 1 ≤ k + 1; omega,
              fun j hj1 hj2 => by
                have hj2' : j < k + 1 - 1 := hj2
                omega⟩
          · intro h; cases h
        · have hok1 : mulOk (devs k) = true := by
            rcases hmo : mulOk (devs k) with _ | _
            · rw [(montgomery_mul_hw_none_iff (devs k) w x a N nprime).mpr hmo] at h1
              cases h1
            · rfl
          rcases h2 : montgomery_mul_hw (devs (k+1)) w a a N nprime with _ | a'
          · have hloop : modexp_hw_loop devs w N nprime (b+1) e k x a =
                (false, x', a, k + 2) := by
              simp [modexp_hw_loop, hbit, h1, h2]
            rw [hloop]
            have hbad := (montgomery_mul_hw_none_iff _ _ _ _ _ _).mp h2
            refine ⟨by show k ≤ k + 2; omega, ?_, ?_⟩
            · intro _
              refine ⟨by simpa using hbad, by show 1 ≤ k + 2; omega, ?_⟩
              intro j hj1 hj2
              have hj2' : j < k + 2 - 1 := hj2
              have hjk : j = k := by omega
              rw [hjk]; exact hok1
            · intro h; cases h
          · have hok2 : mulOk (devs (k+1)) = true := by
              rcases hmo : mulOk (devs (k+1)) with _ | _
              · rw [(montgomery_mul_hw_none_iff (devs (k+1)) w a a N nprime).mpr hmo] at h2
                cases h2
              · rfl
            have hloop : modexp_hw_loop devs w N nprime (b+1) e k x a =
                modexp_hw_loop devs w N nprime b (e / 2) (k + 2) x' a' := by
              simp [modexp_hw_loop, hbit, h1, h2]
            rw [hloop]
            obtain ⟨ha1, ha2, ha3⟩ := ih (e/2) (k+2) x' a'
            refine ⟨by omega, ?_, ?_⟩
            · intro hf
              obtain ⟨hb1, hb2, hb3⟩ := ha2 hf
              refine ⟨hb1, by omega, ?_⟩
              intro j hj1 hj2
              rcases Nat.lt_or_ge j (k+2) with hj | hj
              · rcases Nat.lt_or_ge j (k+1) with hj' | hj'
                · have hjk : j = k := by omega
                  rw [hjk]; exact hok1
                · have hjk : j = k + 1 := by omega
                  rw [hjk]; exact hok2
              · exact hb3 j hj hj2
            · intro ht j hj1 hj2
              rcases Nat.lt_or_ge j (k+2) with hj | hj
              · rcases Nat.lt_or_ge j (k+1) with hj' | hj'
                · have hjk : j = k := by omega
                  rw [hjk]; exact hok1
                · have hjk : j = k + 1 := by omega
                  rw [hjk]; exact hok2
              · exact ha3 ht j hj hj2
      · rcases h1 : montgomery_mul_hw (devs k) w a a N nprime with _ | a'
        · have hloop : modexp_hw_loop devs w N nprime (b+1) e k x a =
              (false, x, a, k + 1) := by
            simp [modexp_hw_loop, hbit, h1]
          rw [hloop]
          have hbad := (montgomery_mul_hw_none_iff _ _ _ _ _ _).mp h1
          refine ⟨by show k ≤ k + 1; omega, ?_, ?_⟩
          · intro _
            exact ⟨by simpa using hbad, by show 1 ≤ k + 1; omega,
              fun j hj1 hj2 => by
                have hj2' : j < k + 1 - 1 := hj2
                omega⟩
          · intro h; cases h
        · have hok1 : mulOk (devs k) = true := by
            rcases hmo : mulOk (devs k) with _ | _
            · rw [(montgomery_mul_hw_none_iff (devs k) w a a N nprime).mpr hmo] at h1
              cases h1
            · rfl
          have hloop : modexp_hw_loop devs w N nprime (b+1) e k x a =
              modexp_hw_loop devs w N nprime b (e / 2) (k + 1) x a' := by
            simp [modexp_hw_loop, hbit, h1]
          rw [hloop]
          obtain ⟨ha1, ha2, ha3⟩ := ih (e/2) (k+1) x a'
          refine ⟨by omega, ?_, ?_⟩
          · intro hf
            obtain ⟨hb1, hb2, hb3⟩ := ha2 hf
            refine ⟨hb1, by omega, ?_⟩
            intro j hj1 hj2
            rcases Nat.lt_or_ge j (k+1) with hj | hj
            · have hjk : j = k := by omega
              rw [hjk]; exact hok1
            · exact hb3 j hj hj2
          · intro ht j hj1 hj2
            rcases Nat.lt_or_ge j (k+1) with hj | hj
            · have hjk : j = k := by omega
              rw [hjk]; exact hok1
            · exact ha3 ht j hj hj2

/-- C8: if any accelerator invocation inside `modexp_hw_scalar` fails,
the function returns failure immediately: the invocations performed are
exactly those up to and including the first failing one (all earlier ones
succeeded, the last one failed), and on success every performed
invocation succeeded. -/
theorem C8_hw_failure_aborts (devs : Nat → HWDev) (base : List Nat) (e : Nat)
    (bits : Nat) (N : List Nat) (n' : Nat) (R2 buf : List Nat) (w : Nat) :
    ((modexp_hw_scalar devs base e bits N n' R2 buf w).1 = false →
      mulOk (devs ((modexp_hw_scalar devs base e bits N n' R2 buf w).2.2 - 1)) = false ∧
      ∀ j, j < (modexp_hw_scalar devs base e bits N n' R2 buf w).2.2 - 1 →
        mulOk (devs j) = true) ∧
    ((modexp_hw_scalar devs base e bits N n' R2 buf w).1 = true →
      ∀ j, j < (modexp_hw_scalar devs base e bits N n' R2 buf w).2.2 →
        mulOk (devs j) = true) := by
  rcases h0 : montgomery_mul_hw (devs 0) w (bigint_set_u32 1 w) R2 N n' with _ | x
  · have hv : modexp_hw_scalar devs base e bits N n' R2 buf w = (false, buf, 1) := by
      simp [modexp_hw_scalar, h0]
    rw [hv]
    refine ⟨fun _ => ⟨?_, fun j hj => ?_⟩, fun h => by simp at h⟩
    · simpa using (montgomery_mul_hw_none_iff _ _ _ _ _ _).mp h0
    · have hj' : j < 1 - 1 := hj
      omega
  · have hok0 : mulOk (devs 0) = true := by
      rcases hmo : mulOk (devs 0) with _ | _
      · rw [(montgomery_mul_hw_none_iff (devs 0) w _ R2 N n').mpr hmo] at h0
        cases h0
      · rfl
    rcases h1 : montgomery_mul_hw (devs 1) w base R2 N n' with _ | a
    · have hv : modexp_hw_scalar devs base e bits N n' R2 buf w = (false, buf, 2) := by
        simp [modexp_hw_scalar, h0, h1]
      rw [hv]
      refine ⟨fun _ => ⟨?_, fun j hj => ?_⟩, fun h => by simp at h⟩
      · simpa using (montgomery_mul_hw_none_iff _ _ _ _ _ _).mp h1
      · have hj' : j < 2 - 1 := hj
        have hj0 : j = 0 := by omega
        rw [hj0]; exact hok0
    · have hok1 : mulOk (devs 1) = true := by
        rcases hmo : mulOk (devs 1) with _ | _
        · rw [(montgomery_mul_hw_none_iff (devs 1) w base R2 N n').mpr hmo] at h1
          cases h1
        · rfl
      obtain ⟨hl1, hl2, hl3⟩ := modexp_hw_loop_calls devs w N n' bits e 2 x a
      rcases hl : modexp_hw_loop devs w N n' bits e 2 x a with ⟨ok, x', a', k⟩
      rw [hl] at hl1 hl2 hl3
      simp only at hl1 hl2 hl3
      have hsmall : ∀ j, j < 2 → mulOk (devs j) = true := by
        intro j hj
        rcases Nat.lt_or_ge j 1 with hj' | hj'
        · have : j = 0 := by omega
          rw [this]; exact hok0
        · have : j = 1 := by omega
          rw [this]; exact hok1
      rcases ok with _ | _
      · have hv : modexp_hw_scalar devs base e bits N n' R2 buf w = (false, buf, k) := by
          simp [modexp_hw_scalar, h0, h1, hl]
        rw [hv]
        obtain ⟨hb1, hb2, hb3⟩ := hl2 rfl
        refine ⟨fun _ => ⟨hb1, fun j hj => ?_⟩, fun h => by simp at h⟩
        have hj' : j < k - 1 := hj
        rcases Nat.lt_or_ge j 2 with hj2 | hj2
        · exact hsmall j hj2
        · exact hb3 j hj2 hj'
      · have hall := hl3 rfl
        rcases h2 : montgomery_mul_hw (devs k) w x' (bigint_set_u32 1 w) N n' with _ | r
        · have hv : modexp_hw_scalar devs base e bits N n' R2 buf w =
              (false, buf, k + 1) := by
            simp [modexp_hw_scalar, h0, h1, hl, h2]
          rw [hv]
          refine ⟨fun _ => ⟨?_, fun j hj => ?_⟩, fun h => by simp at h⟩
          · simpa using (montgomery_mul_hw_none_iff _ _ _ _ _ _).mp h2
          · have hj' : j < k + 1 - 1 := hj
            rcases Nat.lt_or_ge j 2 with hj2 | hj2
            · exact hsmall j hj2
            · exact hall j hj2 (by omega)
        · have hokk : mulOk (devs k) = true := by
            rcases hmo : mulOk (devs k) with _ | _
            · rw [(montgomery_mul_hw_none_iff (devs k) w x' _ N n').mpr hmo] at h2
              cases h2
            · rfl
          have hv : modexp_hw_scalar devs base e bits N n' R2 buf w =
              (true, r, k + 1) := by
            simp [modexp_hw_scalar, h0, h1, hl, h2]
          rw [hv]
          refine ⟨fun h => by simp at h, fun _ j hj => ?_⟩
          have hj' : j < k + 1 := hj
          rcases Nat.lt_or_ge j 2 with hj2 | hj2
          · exact hsmall j hj2
          · rcases Nat.lt_or_ge j k with hjk | hjk
            · exact hall j hj2 hjk
            · have : j = k := by omega
              rw [this]; exact hokk

/-- C10: whenever `modexp_hw_scalar` returns failure, the caller's result
buffer is completely untouched — `montgomery_mul_hw` writes output words
only after the status bit was seen set, and the result buffer is written
only by the final invocation, so a timeout in any phase leaves the buffer
with its initial contents. -/
theorem C10_hw_failure_leaves_result_buffer (devs : Nat → HWDev)
    (base : List Nat) (e : Nat) (bits : Nat) (N : List Nat) (n' : Nat)
    (R2 buf : List Nat) (w : Nat)
    (h : (modexp_hw_scalar devs base e bits N n' R2 buf w).1 = false) :
    (modexp_hw_scalar devs base e bits N n' R2 buf w).2.1 = buf := by
  rcases h0 : montgomery_mul_hw (devs 0) w (bigint_set_u32 1 w) R2 N n' with _ | x
  · have hv : modexp_hw_scalar devs base e bits N n' R2 buf w = (false, buf, 1) := by
      simp [modexp_hw_scalar, h0]
    rw [hv]
  · rcases h1 : montgomery_mul_hw (devs 1) w base R2 N n' with _ | a
    · have hv : modexp_hw_scalar devs base e bits N n' R2 buf w = (false, buf, 2) := by
        simp [modexp_hw_scalar, h0, h1]
      rw [hv]
    · rcases hl : modexp_hw_loop devs w N n' bits e 2 x a with ⟨ok, x', a', k⟩
      rcases ok with _ | _
      · have hv : modexp_hw_scalar devs base e bits N n' R2 buf w = (false, buf, k) := by
          simp [modexp_hw_scalar, h0, h1, hl]
        rw [hv]
      · rcases h2 : montgomery_mul_hw (devs k) w x' (bigint_set_u32 1 w) N n' with _ | r
        · have hv : modexp_hw_scalar devs base e bits N n' R2 buf w =
              (false, buf, k + 1) := by
            simp [modexp_hw_scalar, h0, h1, hl, h2]
          rw [hv]
        · have hv : modexp_hw_scalar devs base e bits N n' R2 buf w =
              (true, r, k + 1) := by
            simp [modexp_hw_scalar, h0, h1, hl, h2]
          rw [hv] at h
          simp at h

theorem pollFirst_const_zero : ∀ fuel j, pollFirst fuel (fun _ => 0) j = none := by
  intro fuel
  induction fuel with
  | zero => intro j; rfl
  | succ f ih => intro j; simp [pollFirst, ih]

theorem montgomery_mul_hw_bad_none (w : Nat) (A B N : List Nat) (n' : Nat) :
    montgomery_mul_hw hwDevBad w A B N n' = none := by
  rw [montgomery_mul_hw]
  have h : pollFirst (HW_DONE_TIMEOUT + 1) hwDevBad.status 0 = none :=
    pollFirst_const_zero _ 0
  rw [h]

theorem modexp_hw_scalar_fail_second (devs : Nat → HWDev) (base : List Nat)
    (e bits : Nat) (N : List Nat) (n' : Nat) (R2 buf : List Nat) (w : Nat)
    (x : List Nat)
    (h0 : montgomery_mul_hw (devs 0) w (bigint_set_u32 1 w) R2 N n' = some x)
    (h1 : montgomery_mul_hw (devs 1) w base R2 N n' = none) :
    modexp_hw_scalar devs base e bits N n' R2 buf w = (false, buf, 2) := by
  simp [modexp_hw_scalar, h0, h1]

theorem hwFailSecond_eval :
    modexp_hw_scalar hwDevsFailSecond [2] 0 0 [5] 3 [2] [9] 1 = (false, [9], 2) := by
  have hgood0 : montgomery_mul_hw (hwDevsFailSecond 0) 1 (bigint_set_u32 1 1)
      [2] [5] 3 = some [2] := by decide
  have hbad1 : montgomery_mul_hw (hwDevsFailSecond 1) 1 [2] [2] [5] 3 = none :=
    montgomery_mul_hw_bad_none 1 [2] [2] [5] 3
  exact modexp_hw_scalar_fail_second hwDevsFailSecond [2] 0 0 [5] 3 [2] [9] 1
    [2] hgood0 hbad1

/-- C7 witness: a concrete device done at the first poll, two result words
read. -/
theorem C7_montgomery_mul_hw_timeout_witness :
    montgomery_mul_hw hwDevGood 2 [3, 0] [4, 0] [5, 0] 7 = some [12, 0] ∧
    ([12, 0] : List Nat).length = 2 ∧
    ([12, 0] : List Nat) =
      (List.range 2).map (hwDevGood.res [3, 0] [4, 0] [5, 0] 7) :=
  ⟨by decide,
    (C7_montgomery_mul_hw_timeout hwDevGood 2 [3, 0] [4, 0] [5, 0] 7).2.2
      [12, 0] (by decide)⟩

/-- C8 witness: with a stream whose second invocation times out, the
exponentiation fails after exactly two invocations, the second being the
failing one and the first having succeeded. -/
theorem C8_hw_failure_aborts_witness :
    (modexp_hw_scalar hwDevsFailSecond [2] 0 0 [5] 3 [2] [9] 1).1 = false ∧
    (mulOk (hwDevsFailSecond
        ((modexp_hw_scalar hwDevsFailSecond [2] 0 0 [5] 3 [2] [9] 1).2.2 - 1)) = false ∧
      ∀ j, j < (modexp_hw_scalar hwDevsFailSecond [2] 0 0 [5] 3 [2] [9] 1).2.2 - 1 →
        mulOk (hwDevsFailSecond j) = true) := by
  have hfalse : (modexp_hw_scalar hwDevsFailSecond [2] 0 0 [5] 3 [2] [9] 1).1 = false := by
    rw [hwFailSecond_eval]
  exact ⟨hfalse,
    (C8_hw_failure_aborts hwDevsFailSecond [2] 0 0 [5] 3 [2] [9] 1).1 hfalse⟩

/-- C10 witness: on that failing run the caller's result buffer `[9]` is
returned untouched. -/
theorem C10_hw_failure_leaves_result_buffer_witness :
    (modexp_hw_scalar hwDevsFailSecond [2] 0 0 [5] 3 [2] [9] 1).1 = false ∧
    (modexp_hw_scalar hwDevsFailSecond [2] 0 0 [5] 3 [2] [9] 1).2.1 = [9] := by
  have hfalse : (modexp_hw_scalar hwDevsFailSecond [2] 0 0 [5] 3 [2] [9] 1).1 = false := by
    rw [hwFailSecond_eval]
  exact ⟨hfalse,
    C10_hw_failure_leaves_result_buffer hwDevsFailSecond [2] 0 0 [5] 3 [2] [9] 1 hfalse⟩

/-! ## `modinv32`: extended Euclid for the inverse mod `2^32`

The C routine keeps `t, new_t, r, new_r` in signed 64-bit variables; they
are modelled as unbounded `Int` (on the values reached from
`r = 2^32, new_r = n < 2^32` no 64-bit overflow occurs).  `q = r / new_r`
is C signed division, i.e. truncation toward zero (`Int.tdiv`).  The
`while (new_r != 0)` loop runs with fuel `n + 1`: `new_r` starts at `n`
and strictly decreases, so the fuel never runs out.  The final
`(u32)t` cast after the conditional `t += 2^32` is the Euclidean
remainder mod `2^32`. -/

theorem xgcdLoop_spec (n : Nat) :
    ∀ fuel (t newT : Int) (a b : Nat), b < fuel →
      ((2 : Int) ^ 32) ∣ (t * n - a) → ((2 : Int) ^ 32) ∣ (newT * n - b) →
      Nat.gcd a b = Nat.gcd (2 ^ 32) n →
      ((2 : Int) ^ 32) ∣
        (xgcdLoop fuel t newT (a : Int) (b : Int) * n - (Nat.gcd (2 ^ 32) n : Int)) := by
  intro fuel
  induction fuel with
  | zero => intro t newT a b hb; omega
  | succ f ih =>
      intro t newT a b hb ht hnt hg
      by_cases hb0 : b = 0
      · subst hb0
        have hstep : xgcdLoop (f + 1) t newT (a : Int) ((0 : Nat) : Int) = t := by
          simp [xgcdLoop]
        rw [hstep]
        rw [Nat.gcd_zero_right] at hg
        rw [← hg]
        exact_mod_cast ht
      · have hbpos : 0 < b := Nat.pos_of_ne_zero hb0
        have hbne : ((b : Nat) : Int) ≠ 0 := by exact_mod_cast hb0
        have hq : Int.tdiv (a : Int) (b : Int) = ((a / b : Nat) : Int) := by
          exact_mod_cast Int.ofNat_tdiv a b
        have hmod : (a : Int) - Int.tdiv (a : Int) (b : Int) * (b : Int) =
            ((a % b : Nat) : Int) := by
          rw [hq]
          have hdm := Nat.div_add_mod a b
          have hsub : a % b = a - b * (a / b) := by omega
          have hle : b * (a / b) ≤ a := by omega
          push_cast [hsub]
          rw [Nat.cast_sub hle]
          push_cast
          ring
        have hstep : xgcdLoop (f + 1) t newT (a : Int) (b : Int) =
            xgcdLoop f newT (t - Int.tdiv (a : Int) (b : Int) * newT) (b : Int)
              ((a : Int) - Int.tdiv (a : Int) (b : Int) * (b : Int)) := by
          simp only [xgcdLoop, if_neg hbne]
        rw [hstep, hmod]
        refine ih newT (t - Int.tdiv (a : Int) (b : Int) * newT) b (a % b)
          (by have := Nat.mod_lt a hbpos; omega) hnt ?_ ?_
        · have hcalc : (t - Int.tdiv (a : Int) (b : Int) * newT) * n -
              ((a % b : Nat) : Int) =
              (t * n - a) - Int.tdiv (a : Int) (b : Int) * (newT * n - b) := by
            rw [← hmod]
            ring
          rw [hcalc]
          exact dvd_sub ht (Dvd.dvd.mul_left hnt _)
        · rw [← hg, Nat.gcd_comm b (a % b), Nat.gcd_comm a b, Nat.gcd_rec b a]

/-- C6: for every odd 32-bit `n`, `modinv32 n` is in `[0, 2^32)` and is a
multiplicative inverse of `n` modulo `2^32`. -/
theorem C6_modinv32_inverse (n : Nat) (hlt : n < 2 ^ 32) (hodd : n % 2 = 1) :
    modinv32 n < 2 ^ 32 ∧ (modinv32 n * n) % 2 ^ 32 = 1 := by
  have hcop : Nat.gcd (2 ^ 32) n = 1 := by
    have h2 : Nat.gcd 2 n = 1 := by
      rw [Nat.gcd_rec 2 n, hodd]
      rfl
    exact Nat.Coprime.pow_left 32 h2
  have hcast : (((2 ^ 32 : Nat) : Int)) = ((2 : Int) ^ 32) := by norm_cast
  have hspec := xgcdLoop_spec n (n + 1) 0 1 (2 ^ 32) n (by omega)
    (⟨-1, by push_cast; ring⟩)
    (by simp)
    rfl
  rw [hcop, hcast] at hspec
  push_cast at hspec
  set T := xgcdLoop (n + 1) 0 1 ((2 : Int) ^ 32) (n : Int) with hT
  set v := modinv32 n with hvdef
  set t' := if T < 0 then T + 2 ^ 32 else T with ht'
  have hpos : (0 : Int) < 2 ^ 32 := by positivity
  have hemod_nonneg : 0 ≤ t'.emod (2 ^ 32) := Int.emod_nonneg t' (by positivity)
  have hemod_lt : t'.emod (2 ^ 32) < 2 ^ 32 := Int.emod_lt_of_pos t' hpos
  have hv : ((v : Nat) : Int) = t'.emod (2 ^ 32) := by
    rw [hvdef, modinv32]
    rw [← hT, ← ht']
    exact Int.toNat_of_nonneg hemod_nonneg
  have hdvd_tT : ((2 : Int) ^ 32) ∣ (t' - T) := by
    rw [ht']
    by_cases h : T < 0
    · rw [if_pos h]
      exact ⟨1, by ring⟩
    · rw [if_neg h]
      simp
  have hdvd_vt : ((2 : Int) ^ 32) ∣ ((v : Int) - t') := by
    have hvt : (v : Int) - t' = t' % 2 ^ 32 - t' := by
      rw [hv]; rfl
    rw [hvt, Int.emod_def]
    exact ⟨-(t' / 2 ^ 32), by ring⟩
  have hdvd_vT : ((2 : Int) ^ 32) ∣ ((v : Int) - T) := by
    have hsum := dvd_add hdvd_vt hdvd_tT
    have harith : ((v : Int) - t') + (t' - T) = (v : Int) - T := by ring
    rwa [harith] at hsum
  have hfinal : ((2 : Int) ^ 32) ∣ ((v : Int) * n - 1) := by
    have hmul : ((2 : Int) ^ 32) ∣ (((v : Int) - T) * n) :=
      Dvd.dvd.mul_right hdvd_vT _
    have harith : (v : Int) * n - 1 = ((v : Int) - T) * n + (T * n - 1) := by ring
    rw [harith]
    exact dvd_add hmul hspec
  constructor
  · have hlt' := hemod_lt
    rw [← hv] at hlt'
    exact_mod_cast hlt'
  · have hmod : v * n ≡ 1 [MOD 2 ^ 32] := by
      rw [Nat.modEq_iff_dvd]
      push_cast
      have harith : (1 : Int) - (v : Int) * n = -((v : Int) * n - 1) := by ring
      rw [harith]
      exact dvd_neg.mpr hfinal
    have h1 : v * n % 2 ^ 32 = 1 % 2 ^ 32 := hmod
    rw [h1]
    norm_num

/-- C6 witness at the toy modulus `n = 3233`. -/
theorem C6_modinv32_inverse_witness :
    3233 < 2 ^ 32 ∧ 3233 % 2 = 1 ∧
    (modinv32 3233 < 2 ^ 32 ∧ (modinv32 3233 * 3233) % 2 ^ 32 = 1) :=
  ⟨by norm_num, by norm_num, C6_modinv32_inverse 3233 (by norm_num) (by norm_num)⟩

/-! ## Behaviour of `modexp_hw_scalar` over a correct Montgomery device

A correct device computes `X * Y * rho mod N` per invocation, where
`rho` is an inverse of `R = 2^(32 w)` modulo `N`, and never times out. -/

theorem montgomery_mul_hw_ok (dev : HWDev) (w : Nat) (A B N : List Nat)
    (n' : Nat) (h : mulOk dev = true) :
    montgomery_mul_hw dev w A B N n' =
      some ((List.range w).map (dev.res A B N n')) := by
  rw [montgomery_mul_hw]
  rcases hp : pollFirst (HW_DONE_TIMEOUT + 1) dev.status 0 with _ | j
  · rw [mulOk, hp] at h
    cases h
  · rfl

/-- Montgomery-domain invariant of the HW bit loop: over a correct device
it always succeeds, and the accumulator leaves the loop congruent to
`x * (a * rho) ^ (e mod 2^bits)` mod `N`. -/
theorem modexp_hw_loop_good (devs : Nat → HWDev) (w : Nat) (N : List Nat)
    (n' : Nat) (ρ : Nat)
    (hdev_ok : ∀ k, mulOk (devs k) = true)
    (hdev_val : ∀ k A B, bigval ((List.range w).map ((devs k).res A B N n')) =
      (bigval A * bigval B * ρ) % bigval N) :
    ∀ bits e k x a, ∃ xf af kf,
      modexp_hw_loop devs w N n' bits e k x a = (true, xf, af, kf) ∧
      bigval xf ≡ bigval x * (bigval a * ρ) ^ (e % 2 ^ bits) [MOD bigval N] := by
  intro bits
  induction bits with
  | zero =>
      intro e k x a
      refine ⟨x, a, k, rfl, ?_⟩
      simp only [Nat.pow_zero, Nat.mod_one, pow_zero, Nat.mul_one]
      exact Nat.ModEq.refl _
  | succ b ih =>
      intro e k x a
      have hsq := montgomery_mul_hw_ok (devs k) w a a N n' (hdev_ok k)
      by_cases hbit : e % 2 = 1
      · have hx' := montgomery_mul_hw_ok (devs k) w x a N n' (hdev_ok k)
        have ha' := montgomery_mul_hw_ok (devs (k+1)) w a a N n' (hdev_ok (k+1))
        set x' := (List.range w).map ((devs k).res x a N n') with hx'def
        set a' := (List.range w).map ((devs (k+1)).res a a N n') with ha'def
        have hstep : modexp_hw_loop devs w N n' (b+1) e k x a =
            modexp_hw_loop devs w N n' b (e / 2) (k + 2) x' a' := by
          simp [modexp_hw_loop, hbit, hx', ha']
        rw [hstep]
        obtain ⟨xf, af, kf, hl, hcong⟩ := ih (e/2) (k+2) x' a'
        refine ⟨xf, af, kf, hl, ?_⟩
        have hx'v : bigval x' = (bigval x * bigval a * ρ) % bigval N :=
          hdev_val k x a
        have ha'v : bigval a' = (bigval a * bigval a * ρ) % bigval N :=
          hdev_val (k+1) a a
        have hx'c : bigval x' ≡ bigval x * bigval a * ρ [MOD bigval N] := by
          rw [hx'v]; exact Nat.mod_modEq _ _
        have ha'c : bigval a' ≡ bigval a * bigval a * ρ [MOD bigval N] := by
          rw [ha'v]; exact Nat.mod_modEq _ _
        have hstep2 : bigval x' * (bigval a' * ρ) ^ (e / 2 % 2 ^ b) ≡
            (bigval x * bigval a * ρ) *
              ((bigval a * bigval a * ρ) * ρ) ^ (e / 2 % 2 ^ b) [MOD bigval N] :=
          hx'c.mul ((ha'c.mul (Nat.ModEq.refl ρ)).pow _)
        have hexp : e % 2 ^ (b + 1) = 1 + 2 * (e / 2 % 2 ^ b) := by
          rw [mod_two_pow_succ, hbit]
        have hring : (bigval x * bigval a * ρ) *
            ((bigval a * bigval a * ρ) * ρ) ^ (e / 2 % 2 ^ b) =
            bigval x * (bigval a * ρ) ^ (1 + 2 * (e / 2 % 2 ^ b)) := by
          rw [show (bigval a * bigval a * ρ) * ρ = (bigval a * ρ) ^ 2 by ring]
          rw [← pow_mul, pow_add]
          ring
        rw [hexp]
        exact hcong.trans (hstep2.trans (by rw [hring]))
      · set a' := (List.range w).map ((devs k).res a a N n') with ha'def
        have hstep : modexp_hw_loop devs w N n' (b+1) e k x a =
            modexp_hw_loop devs w N n' b (e / 2) (k + 1) x a' := by
          simp [modexp_hw_loop, hbit, hsq]
        rw [hstep]
        obtain ⟨xf, af, kf, hl, hcong⟩ := ih (e/2) (k+1) x a'
        refine ⟨xf, af, kf, hl, ?_⟩
        have ha'v : bigval a' = (bigval a * bigval a * ρ) % bigval N :=
          hdev_val k a a
        have ha'c : bigval a' ≡ bigval a * bigval a * ρ [MOD bigval N] := by
          rw [ha'v]; exact Nat.mod_modEq _ _
        have hstep2 : bigval x * (bigval a' * ρ) ^ (e / 2 % 2 ^ b) ≡
            bigval x * ((bigval a * bigval a * ρ) * ρ) ^ (e / 2 % 2 ^ b)
              [MOD bigval N] :=
          (Nat.ModEq.refl _).mul ((ha'c.mul (Nat.ModEq.refl ρ)).pow _)
        have hbit0 : e % 2 = 0 := by omega
        have hexp : e % 2 ^ (b + 1) = 2 * (e / 2 % 2 ^ b) := by
          rw [mod_two_pow_succ, hbit0, Nat.zero_add]
        have hring : bigval x * ((bigval a * bigval a * ρ) * ρ) ^ (e / 2 % 2 ^ b) =
            bigval x * (bigval a * ρ) ^ (2 * (e / 2 % 2 ^ b)) := by
          rw [show (bigval a * bigval a * ρ) * ρ = (bigval a * ρ) ^ 2 by ring]
          rw [← pow_mul]
        rw [hexp]
        exact hcong.trans (hstep2.trans (by rw [hring]))

/-- Full behaviour of `modexp_hw_scalar` over a correct Montgomery device
with genuine parameters: it succeeds and the result buffer receives
`base ^ (e mod 2^bits) mod N`, as the last words read from the device. -/
theorem modexp_hw_scalar_good (devs : Nat → HWDev) (base : List Nat)
    (e bits : Nat) (N : List Nat) (n' : Nat) (R2 buf : List Nat) (w : Nat)
    (ρ : Nat)
    (hdev_ok : ∀ k, mulOk (devs k) = true)
    (hdev_val : ∀ k A B, bigval ((List.range w).map ((devs k).res A B N n')) =
      (bigval A * bigval B * ρ) % bigval N)
    (hN1 : 1 ≤ bigval N)
    (hρ : ρ * B32 ^ w ≡ 1 [MOD bigval N])
    (hR2 : bigval R2 ≡ B32 ^ w * B32 ^ w [MOD bigval N]) :
    (modexp_hw_scalar devs base e bits N n' R2 buf w).1 = true ∧
    (∃ kf xf, (modexp_hw_scalar devs base e bits N n' R2 buf w).2.1 =
      (List.range w).map ((devs kf).res xf (bigint_set_u32 1 w) N n')) ∧
    bigval (modexp_hw_scalar devs base e bits N n' R2 buf w).2.1 =
      bigval base ^ (e % 2 ^ bits) % bigval N := by
  have h0 := montgomery_mul_hw_ok (devs 0) w (bigint_set_u32 1 w) R2 N n' (hdev_ok 0)
  have h1 := montgomery_mul_hw_ok (devs 1) w base R2 N n' (hdev_ok 1)
  set x0 := (List.range w).map ((devs 0).res (bigint_set_u32 1 w) R2 N n') with hx0
  set a0 := (List.range w).map ((devs 1).res base R2 N n') with ha0
  obtain ⟨xf, af, kf, hl, hcong⟩ :=
    modexp_hw_loop_good devs w N n' ρ hdev_ok hdev_val bits e 2 x0 a0
  have h2 := montgomery_mul_hw_ok (devs kf) w xf (bigint_set_u32 1 w) N n' (hdev_ok kf)
  have hres : modexp_hw_scalar devs base e bits N n' R2 buf w =
      (true, (List.range w).map ((devs kf).res xf (bigint_set_u32 1 w) N n'), kf + 1) := by
    simp [modexp_hw_scalar, h0, h1, hl, h2]
  rw [hres]
  refine ⟨rfl, ⟨kf, xf, rfl⟩, ?_⟩
  have hx0v : bigval x0 = (1 * bigval R2 * ρ) % bigval N := by
    rw [hx0, hdev_val 0, bigval_set_u32]
  have ha0v : bigval a0 = (bigval base * bigval R2 * ρ) % bigval N :=
    hdev_val 1 base R2
  have hrv : bigval ((List.range w).map ((devs kf).res xf (bigint_set_u32 1 w) N n')) =
      (bigval xf * ρ) % bigval N := by
    rw [hdev_val kf, bigval_set_u32, Nat.mul_one]
  rw [hrv]
  set T := e % 2 ^ bits with hTdef
  have hx0c : bigval x0 ≡ bigval R2 * ρ [MOD bigval N] := by
    rw [hx0v, Nat.one_mul]; exact Nat.mod_modEq _ _
  have ha0c : bigval a0 ≡ bigval base * bigval R2 * ρ [MOD bigval N] := by
    rw [ha0v]; exact Nat.mod_modEq _ _
  have hchain : bigval xf * ρ ≡
      (bigval R2 * ρ) * ((bigval base * bigval R2 * ρ) * ρ) ^ T * ρ
        [MOD bigval N] := by
    refine (hcong.mul (Nat.ModEq.refl ρ)).trans ?_
    exact (hx0c.mul ((ha0c.mul (Nat.ModEq.refl ρ)).pow T)).mul (Nat.ModEq.refl ρ)
  have hbR2 : (bigval base * bigval R2 * ρ) * ρ ≡
      (bigval base * (B32 ^ w * B32 ^ w) * ρ) * ρ [MOD bigval N] :=
    (((Nat.ModEq.refl (bigval base)).mul hR2).mul (Nat.ModEq.refl ρ)).mul
      (Nat.ModEq.refl ρ)
  have hR2chain : (bigval R2 * ρ) * ((bigval base * bigval R2 * ρ) * ρ) ^ T * ρ ≡
      (B32 ^ w * B32 ^ w * ρ) *
        ((bigval base * (B32 ^ w * B32 ^ w) * ρ) * ρ) ^ T * ρ [MOD bigval N] :=
    ((hR2.mul (Nat.ModEq.refl ρ)).mul (hbR2.pow T)).mul (Nat.ModEq.refl ρ)
  have hring : (B32 ^ w * B32 ^ w * ρ) *
      ((bigval base * (B32 ^ w * B32 ^ w) * ρ) * ρ) ^ T * ρ =
      bigval base ^ T * (ρ * B32 ^ w) ^ (2 * T + 2) := by
    ring
  have hone : bigval base ^ T * (ρ * B32 ^ w) ^ (2 * T + 2) ≡
      bigval base ^ T * 1 ^ (2 * T + 2) [MOD bigval N] :=
    (Nat.ModEq.refl _).mul (hρ.pow _)
  have hfinal : bigval xf * ρ ≡ bigval base ^ T [MOD bigval N] := by
    refine (hchain.trans (hR2chain.trans ?_))
    rw [hring]
    refine hone.trans ?_
    rw [one_pow, Nat.mul_one]
  have hmods := hfinal
  rw [Nat.ModEq] at hmods
  exact hmods

/-! ## Claim C1: hardware/software result identity -/

theorem mod_mul_decomp (v K M : Nat) (hK : 0 < K) (hM : 0 < M) :
    v % (K * M) = v % K + K * (v / K % M) := by
  have ha := Nat.div_add_mod v K
  have hb := Nat.div_add_mod (v / K) M
  have hr : v % K < K := Nat.mod_lt _ hK
  have hm : v / K % M < M := Nat.mod_lt _ hM
  have hlt : v % K + K * (v / K % M) < K * M := by
    calc v % K + K * (v / K % M) < K + K * (v / K % M) := by omega
      _ ≤ K + K * (M - 1) := by
          have := Nat.mul_le_mul_left K (by omega : v / K % M ≤ M - 1)
          omega
      _ ≤ K * M := by
          have hM1 : M = (M - 1) + 1 := by omega
          nlinarith [hM1]
  have hsplit : v = K * M * (v / K / M) + (v % K + K * (v / K % M)) := by
    nlinarith [ha, hb]
  conv_lhs => rw [hsplit]
  rw [Nat.mul_add_mod, Nat.mod_eq_of_lt hlt]

theorem bigval_range_digits (v : Nat) :
    ∀ w, bigval ((List.range w).map (fun i => v / B32 ^ i % B32)) = v % B32 ^ w := by
  intro w
  induction w with
  | zero => simp [bigval, Nat.mod_one]
  | succ w ih =>
      rw [List.range_succ, List.map_append, bigval_append]
      rw [ih]
      simp only [List.map_cons, List.map_nil, List.length_map, List.length_range]
      have hcons : bigval [v / B32 ^ w % B32] = v / B32 ^ w % B32 := by
        simp [bigval]
      rw [hcons]
      rw [pow_succ, mod_mul_decomp v (B32 ^ w) B32 (Nat.pos_pow_of_pos w B32_pos) B32_pos]

theorem idealDev_ok (Nv ρ : Nat) : mulOk (idealDev Nv ρ) = true := rfl

theorem idealDev_val (Nv ρ w : Nat) (hN : 0 < Nv) (hfit : Nv ≤ B32 ^ w)
    (N' : List Nat) (n' : Nat) (A B : List Nat) :
    bigval ((List.range w).map ((idealDev Nv ρ).res A B N' n')) =
      (bigval A * bigval B * ρ) % Nv := by
  have h := bigval_range_digits ((bigval A * bigval B * ρ) % Nv) w
  have heq : ((idealDev Nv ρ).res A B N' n') =
      fun i => (bigval A * bigval B * ρ) % Nv / B32 ^ i % B32 := rfl
  rw [heq, h, Nat.mod_eq_of_lt (lt_of_lt_of_le (Nat.mod_lt _ hN) hfit)]

/-- C1 counterexample: with `w = 1`, `N = [5]`, `rho = 1` (indeed
`1 * 2^32 ≡ 1 (mod 5)`, so `idealDev 5 1` performs a genuinely correct
Montgomery multiplication per invocation and never times out), base `[1]`,
exponent `1` over `1` bit, and `R2 = [2]` (an arbitrary legal input, but
not `R^2 mod 5 = 1`), the hardware path returns value `4` while the
software path returns value `1`: the claim's quantification over every
`R2` is false. -/
theorem C1_hw_sw_differ_for_arbitrary_R2 :
    (1 * 2 ^ 32) % 5 = 1 % 5 ∧
    (modexp_hw_scalar (fun _ => idealDev 5 1) [1] 1 1 [5] 0 [2] [0] 1).1 = true ∧
    bigval (modexp_hw_scalar (fun _ => idealDev 5 1) [1] 1 1 [5] 0 [2] [0] 1).2.1 = 4 ∧
    bigval (modexp_sw_scalar [1] 1 1 [5] 1) = 1 := by
  refine ⟨by decide, by decide, by decide, by decide⟩

/-- C1 amended: over a device that correctly performs one Montgomery
multiplication (`X * Y * rho mod N`, `rho` an inverse of `2^(32 w)` mod
`N`) per invocation and never times out, and with `R2 ≡ (2^(32 w))^2 mod
N` (the genuine Montgomery constant), a reduced base coprime to `N`,
`N ≥ 2`, and `N^2` fitting in `w` words (so the software multiply never
truncates), `modexp_hw_scalar` succeeds and returns a BigNum numerically
identical to `modexp_sw_scalar`'s. -/
theorem C1_hw_sw_identical (devs : Nat → HWDev) (base : List Nat)
    (e bits : Nat) (N : List Nat) (n' : Nat) (R2 buf : List Nat) (w : Nat)
    (ρ : Nat)
    (hN : N.length = w) (hNb : ∀ z ∈ N, z < B32) (hN2 : 2 ≤ bigval N)
    (hfit : bigval N * bigval N ≤ B32 ^ w)
    (hbase : base.length = w) (hbb : ∀ z ∈ base, z < B32)
    (hbN : bigval base < bigval N)
    (hcop : Nat.Coprime (bigval base) (bigval N))
    (hρ : ρ * B32 ^ w ≡ 1 [MOD bigval N])
    (hR2 : bigval R2 ≡ B32 ^ w * B32 ^ w [MOD bigval N])
    (hdev_ok : ∀ k, mulOk (devs k) = true)
    (hdev_val : ∀ k A B, bigval ((List.range w).map ((devs k).res A B N n')) =
      (bigval A * bigval B * ρ) % bigval N) :
    (modexp_hw_scalar devs base e bits N n' R2 buf w).1 = true ∧
    bigval (modexp_hw_scalar devs base e bits N n' R2 buf w).2.1 =
      bigval (modexp_sw_scalar base e bits N w) := by
  obtain ⟨hok, _, hval⟩ := modexp_hw_scalar_good devs base e bits N n' R2 buf w ρ
    hdev_ok hdev_val (by omega) hρ hR2
  obtain ⟨_, _, hsw⟩ := modexp_sw_scalar_coprime N w base e bits
    hN hNb hN2 hfit hbase hbb hbN hcop
  exact ⟨hok, by rw [hval, hsw]⟩

/-- C1 amended-claim witness: `w = 1`, `N = [7]`, base `[3]`, `rho = 2`
(`2 * 2^32 ≡ 1 (mod 7)`), `R2 = [2] = [R^2 mod 7]`. -/
theorem C1_hw_sw_identical_witness :
    Nat.gcd (bigval [3]) (bigval [7]) = 1 ∧
    (2 * B32 ^ 1) % bigval [7] = 1 % bigval [7] ∧
    bigval [2] % bigval [7] = (B32 ^ 1 * B32 ^ 1) % bigval [7] ∧
    ((modexp_hw_scalar (fun _ => idealDev 7 2) [3] 1 1 [7] 0 [2] [0] 1).1 = true ∧
     bigval (modexp_hw_scalar (fun _ => idealDev 7 2) [3] 1 1 [7] 0 [2] [0] 1).2.1 =
       bigval (modexp_sw_scalar [3] 1 1 [7] 1)) :=
  ⟨by decide, by decide, by decide,
    C1_hw_sw_identical (fun _ => idealDev 7 2) [3] 1 1 [7] 0 [2] [0] 1 2
      rfl (by decide) (by decide) (by decide) rfl (by decide) (by decide)
      (by decide) (by decide) (by decide)
      (fun _ => idealDev_ok 7 2)
      (fun _ A B => idealDev_val 7 2 1 (by decide) (by decide) [7] 0 A B)⟩

/-! ## Claim C5: round-trip with the toy keypair `n = 3233, e = 17, d = 2753` -/

theorem bigval_RSA_N_list (w : Nat) : bigval (RSA_N_list w) = 3233 := by
  rw [RSA_N_list, bigval_cons, bigval_replicate_zero]
  ring

theorem compute_R2_modN_32_val (n0 : Nat) (h : 2 ≤ n0) (w : Nat) :
    compute_R2_modN_32 n0 w =
      (2 ^ (32 * w) % n0) * (2 ^ (32 * w) % n0) % n0 := by
  have hiter : ∀ k, (fun r => r * 2 % n0)^[k] 1 = 2 ^ k % n0 := by
    intro k
    induction k with
    | zero =>
        simp [Nat.mod_eq_of_lt (by omega : 1 < n0)]
    | succ k ih =>
        rw [Function.iterate_succ_apply', ih]
        rw [Nat.mod_mul_mod, ← pow_succ]
  rw [compute_R2_modN_32, hiter]

theorem init_mont_R2_congruence (w : Nat) :
    bigval (init_mont_R2 3233 w) ≡ B32 ^ w * B32 ^ w [MOD 3233] := by
  have hval : bigval (init_mont_R2 3233 w) = compute_R2_modN_32 3233 w := by
    rw [init_mont_R2, bigval_cons, bigval_replicate_zero]
    ring
  rw [hval, compute_R2_modN_32_val 3233 (by norm_num) w]
  have hB : B32 ^ w = 2 ^ (32 * w) := by
    rw [B32, ← pow_mul]
  rw [hB]
  calc (2 ^ (32 * w) % 3233) * (2 ^ (32 * w) % 3233) % 3233
      = 2 ^ (32 * w) * 2 ^ (32 * w) % 3233 := by
        conv_rhs => rw [Nat.mul_mod]
    _ ≡ 2 ^ (32 * w) * 2 ^ (32 * w) [MOD 3233] := Nat.mod_modEq _ _

/-- Fermat-style congruence per prime factor of `3233 = 53 * 61`. -/
theorem pow_mod_prime_period (p : Nat) (hp : Nat.Prime p) (m c M : Nat)
    (hc : c = m * (p - 1) + 1) : M ^ c ≡ M [MOD p] := by
  haveI : Fact (Nat.Prime p) := ⟨hp⟩
  have hz : (M : ZMod p) ^ c = (M : ZMod p) := by
    rcases eq_or_ne (M : ZMod p) 0 with h0 | h0
    · rw [h0, zero_pow (by omega : c ≠ 0)]
    · rw [hc, pow_add, pow_one, Nat.mul_comm, pow_mul,
        ZMod.pow_card_sub_one_eq_one h0, one_pow, one_mul]
  have hcast : ((M ^ c : Nat) : ZMod p) = ((M : Nat) : ZMod p) := by
    push_cast
    exact hz
  exact (ZMod.natCast_eq_natCast_iff _ _ _).mp hcast

/-- For every `M`, `M ^ (17 * 2753) ≡ M (mod 3233)`; `46801 = 17 * 2753`,
`3233 = 53 * 61`, `46800` is a multiple of both `52` and `60`. -/
theorem pow_46801_mod_3233 (M : Nat) : M ^ 46801 % 3233 = M % 3233 := by
  have h53 : M ^ 46801 ≡ M [MOD 53] :=
    pow_mod_prime_period 53 (by norm_num) 900 46801 M (by norm_num)
  have h61 : M ^ 46801 ≡ M [MOD 61] :=
    pow_mod_prime_period 61 (by norm_num) 780 46801 M (by norm_num)
  have hcop : Nat.Coprime 53 61 := by norm_num
  have hmul := (Nat.modEq_and_modEq_iff_modEq_mul hcop).mp ⟨h53, h61⟩
  have h3233 : (53 : Nat) * 61 = 3233 := by norm_num
  rw [h3233] at hmul
  exact hmul

/-- On residues that are powers of a common base `< 3233`, a product is
divisible by `3233` only if it is zero (`3233 = 53 * 61` squarefree). -/
theorem good_pow_3233 (Mv : Nat) (hM : Mv < 3233) :
    ∀ u v : Nat, (∃ j, u = Mv ^ j % 3233) → (∃ k, v = Mv ^ k % 3233) →
      u < 3233 → v < 3233 → 3233 ∣ u * v → u * v = 0 := by
  rintro u v ⟨j, hj⟩ ⟨k, hk⟩ _ _ hdvd
  by_cases hjk : j + k = 0
  · exfalso
    have hj0 : j = 0 := by omega
    have hk0 : k = 0 := by omega
    rw [hj, hk, hj0, hk0] at hdvd
    norm_num at hdvd
  · have hcong : u * v % 3233 = Mv ^ (j + k) % 3233 := by
      rw [hj, hk]
      conv_rhs => rw [pow_add, Nat.mul_mod]
    have h0 : u * v % 3233 = 0 := Nat.mod_eq_zero_of_dvd hdvd
    have hMdvd : (3233 : Nat) ∣ Mv ^ (j + k) :=
      Nat.dvd_of_mod_eq_zero (hcong ▸ h0)
    have h53 : (53 : Nat) ∣ Mv :=
      Nat.Prime.dvd_of_dvd_pow (by norm_num)
        (dvd_trans (by norm_num : (53 : Nat) ∣ 3233) hMdvd)
    have h61 : (61 : Nat) ∣ Mv :=
      Nat.Prime.dvd_of_dvd_pow (by norm_num)
        (dvd_trans (by norm_num : (61 : Nat) ∣ 3233) hMdvd)
    have h3233M : (3233 : Nat) ∣ Mv := by
      have hcop : Nat.Coprime 53 61 := by norm_num
      have := Nat.Coprime.mul_dvd_of_dvd_of_dvd hcop h53 h61
      norm_num at this
      exact this
    have hM0 : Mv = 0 := by
      rcases Nat.eq_zero_or_pos Mv with h | h
      · exact h
      · exact absurd (Nat.le_of_dvd h h3233M) (by omega)
    subst hM0
    rcases Nat.eq_zero_or_pos k with hk0 | hkpos
    · have hjpos : j ≠ 0 := by omega
      have hu : u = 0 := by rw [hj, zero_pow hjpos, Nat.zero_mod]
      rw [hu, Nat.zero_mul]
    · have hv : v = 0 := by
        rw [hk, zero_pow (by omega : k ≠ 0), Nat.zero_mod]
      rw [hv, Nat.mul_zero]

/-- Software exponentiation with the padded toy modulus computes
`base ^ (e mod 2^bits) mod 3233` for any reduced base (coprime or not):
the invariant "every intermediate residue is a power of the base mod
3233" rules out the non-zero-multiple-of-N corner of `modmul_sw`. -/
theorem modexp_sw_pow_3233 (w : Nat) (base : List Nat) (e bits : Nat)
    (hw : 1 ≤ w) (hbase : base.length = w) (hbb : ∀ z ∈ base, z < B32)
    (hblt : bigval base < 3233) :
    (modexp_sw_scalar base e bits (RSA_N_list w) w).length = w ∧
    (∀ z ∈ modexp_sw_scalar base e bits (RSA_N_list w) w, z < B32) ∧
    bigval (modexp_sw_scalar base e bits (RSA_N_list w) w) =
      bigval base ^ (e % 2 ^ bits) % 3233 := by
  have hNval := bigval_RSA_N_list w
  have hNlen : (RSA_N_list w).length = w := by
    rw [RSA_N_list, List.length_cons, List.length_replicate]
    omega
  have hNb : ∀ z ∈ RSA_N_list w, z < B32 := by
    intro z hz
    rcases List.mem_cons.mp hz with hz | hz
    · rw [hz]; decide
    · rw [List.eq_of_mem_replicate hz]; exact B32_pos
  have hfit : bigval (RSA_N_list w) * bigval (RSA_N_list w) ≤ B32 ^ w := by
    rw [hNval]
    calc (3233 : Nat) * 3233 ≤ B32 := by decide
      _ ≤ B32 ^ w := Nat.le_self_pow (by omega) B32
  obtain ⟨h1, h2, h3⟩ := modexp_sw_scalar_val (RSA_N_list w) w
    (fun u => ∃ j, u = bigval base ^ j % 3233)
    hNlen hNb (by rw [hNval]; omega) hfit
    (by
      rw [hNval]
      exact good_pow_3233 (bigval base) hblt)
    (by
      rw [hNval]
      rintro u v ⟨j, hj⟩ ⟨k, hk⟩
      refine ⟨j + k, ?_⟩
      rw [hj, hk]
      conv_rhs => rw [pow_add, Nat.mul_mod])
    base e bits hbase hbb (by rw [hNval]; exact hblt)
    ⟨0, by rw [pow_zero]; norm_num⟩
    ⟨1, by rw [pow_one, Nat.mod_eq_of_lt hblt]⟩
  rw [hNval] at h3
  exact ⟨h1, h2, h3⟩

/-- The canonical digit expansion of a one-word value. -/
theorem map_digits_canonical (v w : Nat) (hv : v < B32) (hw : 1 ≤ w) :
    (List.range w).map (fun i => v / B32 ^ i % B32) =
      v :: List.replicate (w - 1) 0 := by
  obtain ⟨w', rfl⟩ : ∃ w', w = w' + 1 := ⟨w - 1, by omega⟩
  rw [List.range_succ_eq_map, List.map_cons, List.map_map]
  have hhead : v / B32 ^ 0 % B32 = v := by
    rw [pow_zero, Nat.div_one, Nat.mod_eq_of_lt hv]
  rw [hhead]
  have htail : (List.range w').map ((fun i => v / B32 ^ i % B32) ∘ Nat.succ) =
      List.replicate w' 0 := by
    apply List.eq_replicate.mpr
    refine ⟨by simp, ?_⟩
    intro b hb
    obtain ⟨i, _, hib⟩ := List.mem_map.mp hb
    rw [← hib]
    have hdiv : v / B32 ^ (Nat.succ i) = 0 := by
      apply Nat.div_eq_of_lt
      calc v < B32 := hv
        _ = B32 ^ 1 := (pow_one B32).symm
        _ ≤ B32 ^ (Nat.succ i) := Nat.pow_le_pow_right (by decide) (by omega)
    simp [Function.comp, hdiv]
  rw [htail]
  simp

theorem pow_roundtrip_value (Mv cv : Nat) (hMlt : Mv < 3233)
    (hcv : cv = Mv ^ 17 % 3233) : cv ^ 2753 % 3233 = Mv := by
  rw [hcv]
  have hpm : (Mv ^ 17 % 3233) ^ 2753 % 3233 = (Mv ^ 17) ^ 2753 % 3233 :=
    (Nat.pow_mod (Mv ^ 17) 2753 3233).symm
  rw [hpm, ← pow_mul]
  have h17 : (17 : Nat) * 2753 = 46801 := by norm_num
  rw [h17, pow_46801_mod_3233, Nat.mod_eq_of_lt hMlt]

/-- C5: for the toy keypair `N = 3233`, `e = 17` over `5` bits,
`d = 2753` over `12` bits, and every message BigNum `M` with value below
`3233`, encrypt-then-decrypt returns `M` — independently for the software
path and for the hardware path over a correct Montgomery device (status
always ready, result bank holding the words of `X * Y * rho mod 3233`,
`rho` an inverse of `2^(32 w)` mod `3233`), using the `R2` BigNum the
program derives with `compute_R2_modN_32`. -/
theorem C5_toy_keypair_roundtrip (w : Nat) (M : List Nat) (ρ n' : Nat)
    (devs : Nat → HWDev) (buf1 buf2 : List Nat)
    (hw : 1 ≤ w) (hM : M.length = w) (hMb : ∀ z ∈ M, z < B32)
    (hMlt : bigval M < 3233)
    (hρ : ρ * B32 ^ w ≡ 1 [MOD 3233])
    (hdev_ok : ∀ k, mulOk (devs k) = true)
    (hdev_res : ∀ k A B i, (devs k).res A B (RSA_N_list w) n' i =
      (bigval A * bigval B * ρ) % 3233 / B32 ^ i % B32) :
    modexp_sw_scalar (modexp_sw_scalar M RSA_E RSA_E_BITS (RSA_N_list w) w)
        RSA_D RSA_D_BITS (RSA_N_list w) w = M ∧
    ((modexp_hw_scalar devs M RSA_E RSA_E_BITS (RSA_N_list w) n'
        (init_mont_R2 3233 w) buf1 w).1 = true ∧
     (modexp_hw_scalar devs
        (modexp_hw_scalar devs M RSA_E RSA_E_BITS (RSA_N_list w) n'
          (init_mont_R2 3233 w) buf1 w).2.1
        RSA_D RSA_D_BITS (RSA_N_list w) n' (init_mont_R2 3233 w) buf2 w).1 = true ∧
     (modexp_hw_scalar devs
        (modexp_hw_scalar devs M RSA_E RSA_E_BITS (RSA_N_list w) n'
          (init_mont_R2 3233 w) buf1 w).2.1
        RSA_D RSA_D_BITS (RSA_N_list w) n' (init_mont_R2 3233 w) buf2 w).2.1 = M) := by
  have hNval := bigval_RSA_N_list w
  have hE : RSA_E % 2 ^ RSA_E_BITS = 17 := by decide
  have hD : RSA_D % 2 ^ RSA_D_BITS = 2753 := by decide
  have hMcanon : M = bigval M :: List.replicate (w - 1) 0 := by
    have := bigval_canonical M (lt_trans hMlt (by decide))
      (List.length_pos.mp (by omega))
    rwa [hM] at this
  constructor
  · obtain ⟨hc1, hc2, hc3⟩ := modexp_sw_pow_3233 w M RSA_E RSA_E_BITS hw hM hMb hMlt
    rw [hE] at hc3
    set c := modexp_sw_scalar M RSA_E RSA_E_BITS (RSA_N_list w) w with hcdef
    have hclt : bigval c < 3233 := by
      rw [hc3]
      exact Nat.mod_lt _ (by norm_num)
    obtain ⟨hm1, hm2, hm3⟩ := modexp_sw_pow_3233 w c RSA_D RSA_D_BITS hw hc1 hc2 hclt
    rw [hD] at hm3
    have hval : bigval (modexp_sw_scalar c RSA_D RSA_D_BITS (RSA_N_list w) w) =
        bigval M := by
      rw [hm3]
      exact pow_roundtrip_value (bigval M) (bigval c) hMlt hc3
    have hcanon := bigval_canonical
      (modexp_sw_scalar c RSA_D RSA_D_BITS (RSA_N_list w) w)
      (by rw [hval]; exact lt_trans hMlt (by decide))
      (List.length_pos.mp (by omega))
    rw [hm1, hval] at hcanon
    rw [hcanon, ← hMcanon]
  · have hdev_val : ∀ k A B,
        bigval ((List.range w).map ((devs k).res A B (RSA_N_list w) n')) =
          (bigval A * bigval B * ρ) % bigval (RSA_N_list w) := by
      intro k A B
      have hmap : (List.range w).map ((devs k).res A B (RSA_N_list w) n') =
          (List.range w).map
            (fun i => (bigval A * bigval B * ρ) % 3233 / B32 ^ i % B32) :=
        List.map_congr_left (fun i _ => hdev_res k A B i)
      rw [hmap, bigval_range_digits, hNval]
      exact Nat.mod_eq_of_lt (lt_of_lt_of_le (Nat.mod_lt _ (by norm_num))
        (le_trans (by decide) (Nat.le_self_pow (by omega) B32)))
    have hρ' : ρ * B32 ^ w ≡ 1 [MOD bigval (RSA_N_list w)] := by
      rw [hNval]; exact hρ
    have hR2' : bigval (init_mont_R2 3233 w) ≡
        B32 ^ w * B32 ^ w [MOD bigval (RSA_N_list w)] := by
      rw [hNval]; exact init_mont_R2_congruence w
    obtain ⟨he1, _, he3⟩ := modexp_hw_scalar_good devs M RSA_E RSA_E_BITS
      (RSA_N_list w) n' (init_mont_R2 3233 w) buf1 w ρ hdev_ok hdev_val
      (by rw [hNval]; omega) hρ' hR2'
    set c := (modexp_hw_scalar devs M RSA_E RSA_E_BITS (RSA_N_list w) n'
      (init_mont_R2 3233 w) buf1 w).2.1 with hcdef
    rw [hNval, hE] at he3
    obtain ⟨hd1, hdlist, hd3⟩ := modexp_hw_scalar_good devs c RSA_D RSA_D_BITS
      (RSA_N_list w) n' (init_mont_R2 3233 w) buf2 w ρ hdev_ok hdev_val
      (by rw [hNval]; omega) hρ' hR2'
    rw [hNval, hD] at hd3
    refine ⟨he1, hd1, ?_⟩
    have hval : bigval (modexp_hw_scalar devs c RSA_D RSA_D_BITS (RSA_N_list w) n'
        (init_mont_R2 3233 w) buf2 w).2.1 = bigval M := by
      rw [hd3]
      exact pow_roundtrip_value (bigval M) (bigval c) hMlt he3
    obtain ⟨kf, xf, hlist⟩ := hdlist
    have hmap : (List.range w).map ((devs kf).res xf (bigint_set_u32 1 w)
        (RSA_N_list w) n') =
        (List.range w).map (fun i =>
          (bigval xf * bigval (bigint_set_u32 1 w) * ρ) % 3233 / B32 ^ i % B32) :=
      List.map_congr_left (fun i _ => hdev_res kf xf (bigint_set_u32 1 w) i)
    have hVlt : (bigval xf * bigval (bigint_set_u32 1 w) * ρ) % 3233 < B32 := by
      exact lt_of_lt_of_le (Nat.mod_lt _ (by norm_num)) (by decide)
    have hcanon2 := map_digits_canonical
      ((bigval xf * bigval (bigint_set_u32 1 w) * ρ) % 3233) w hVlt hw
    rw [hlist, hmap, hcanon2] at hval ⊢
    rw [bigval_cons, bigval_replicate_zero, Nat.mul_zero, Nat.add_zero] at hval
    rw [hval, ← hMcanon]

/-- C5 witness: `w = 1`, `M = [42]`, `rho = 1296`
(`1296 * 2^32 ≡ 1 (mod 3233)`), ideal accelerator. -/
theorem C5_toy_keypair_roundtrip_witness :
    bigval [42] < 3233 ∧
    (1296 * B32 ^ 1) % 3233 = 1 % 3233 ∧
    modexp_sw_scalar (modexp_sw_scalar [42] RSA_E RSA_E_BITS (RSA_N_list 1) 1)
      RSA_D RSA_D_BITS (RSA_N_list 1) 1 = [42] ∧
    (modexp_hw_scalar (fun _ => idealDev 3233 1296)
        (modexp_hw_scalar (fun _ => idealDev 3233 1296) [42] RSA_E RSA_E_BITS
          (RSA_N_list 1) 0 (init_mont_R2 3233 1) [0] 1).2.1
        RSA_D RSA_D_BITS (RSA_N_list 1) 0 (init_mont_R2 3233 1) [0] 1).2.1 = [42] := by
  have H := C5_toy_keypair_roundtrip 1 [42] 1296 0 (fun _ => idealDev 3233 1296)
    [0] [0] (by decide) rfl (by decide) (by decide) (by decide)
    (fun _ => idealDev_ok 3233 1296) (fun _ A B i => rfl)
  exact ⟨by decide, by decide, H.1, H.2.2.2⟩

end RsaMont
